import Mathlib

/-!
Verification development for the water-zone consolidation and maritime-
connectivity modificator (`WaterProxy.cpp`) of the VCMI random map
generator.  The data model and the operations are translated from
`src/lib/rmg/modificators/WaterProxy.cpp`; the area algebra, the grid and
the external collaborators (`rmg::Area`, `ObjectManager`, `WaterAdopter`,
`TownPlacer`, path search) are not part of the provided sources and are
modelled from the specification where a claim needs them.
-/

/-- A map tile coordinate `(x, y, level)`; the level distinguishes the
surface from the underground (`int3` in the source). -/
structure Tile where
  x : ℤ
  y : ℤ
  z : ℤ
deriving DecidableEq, Repr

/-- Injection of tiles into a lexicographic triple, used to give tiles the
linear order that `std::set<int3>` iteration follows. -/
def Tile.toLexTriple (t : Tile) : ℤ ×ₗ (ℤ ×ₗ ℤ) :=
  toLex (t.x, toLex (t.y, t.z))

theorem Tile.toLexTriple_injective : Function.Injective Tile.toLexTriple := by
  intro a b h
  cases a; cases b
  simp only [Tile.toLexTriple, toLex_inj, Prod.mk.injEq] at h
  obtain ⟨h1, h2, h3⟩ := h
  simp [h1, h2, h3]

instance : LinearOrder Tile :=
  LinearOrder.lift' Tile.toLexTriple Tile.toLexTriple_injective

/-- `rmg::Area` — a finite set of tiles.  Modelled from the spec:
an immutable set of tile coordinates with union, intersection,
subtraction, border and distance-field operations. -/
abbrev Area := Finset Tile

/-- The eight same-level neighbour offsets used by the tile
neighbourhood of the area algebra.  Modelled from the spec: borders are
the tiles adjacent to the set. -/
def deltas : List (ℤ × ℤ) :=
  [(-1, -1), (-1, 0), (-1, 1), (0, -1), (0, 1), (1, -1), (1, 0), (1, 1)]

/-- The neighbours of a tile: the eight surrounding tiles on the same
level. -/
def neighbours (t : Tile) : Finset Tile :=
  (deltas.map (fun d => Tile.mk (t.x + d.1) (t.y + d.2) t.z)).toFinset

theorem mem_neighbours_of_delta {t : Tile} {d : ℤ × ℤ} (hd : d ∈ deltas) :
    Tile.mk (t.x + d.1) (t.y + d.2) t.z ∈ neighbours t := by
  simp only [neighbours, List.mem_toFinset, List.mem_map]
  exact ⟨d, hd, rfl⟩

/-- `Area::getBorderOutside` — the tiles adjacent to the set but not in
it.  Modelled from the spec. -/
def borderOutside (a : Area) : Area :=
  (a.biUnion neighbours) \ a

/-- `Area::getBorder` — the tiles of the set having at least one
neighbour outside it.  Modelled from the spec. -/
def borderInside (a : Area) : Area :=
  a.filter (fun t => ((neighbours t).filter (fun u => u ∉ a)).Nonempty)

theorem borderInside_subset (a : Area) : borderInside a ⊆ a :=
  Finset.filter_subset _ a

/-- A nonempty finite area has a nonempty inner border: a tile of
maximal `x` coordinate has its east neighbour outside the area. -/
theorem borderInside_nonempty {a : Area} (h : a.Nonempty) :
    (borderInside a).Nonempty := by
  have himg : (a.image Tile.x).Nonempty := h.image _
  obtain ⟨t, ht, hmax⟩ := Finset.mem_image.mp (Finset.max'_mem _ himg)
  refine ⟨t, Finset.mem_filter.mpr ⟨ht, ?_⟩⟩
  refine ⟨Tile.mk (t.x + 1) t.y t.z, Finset.mem_filter.mpr ⟨?_, ?_⟩⟩
  · simpa using mem_neighbours_of_delta (t := t) (d := (1, 0)) (by simp [deltas])
  · intro hmem
    have hle : t.x + 1 ≤ (a.image Tile.x).max' himg := by
      simpa using Finset.le_max' _ _ (Finset.mem_image_of_mem Tile.x hmem)
    omega

/-- One BFS peeling pass list: repeatedly strip the inner border,
recording each stripped layer.  This is the layer structure that
`Area::computeDistanceMap` produces (`reverseDistanceMap`), the BFS
distance layers measured inward from the outer border.  Modelled from
the spec. -/
def peelLayers : ℕ → Area → List Area
  | 0, _ => []
  | n + 1, a =>
    if h : a.Nonempty then borderInside a :: peelLayers n (a \ borderInside a)
    else []

/-- `Area::computeDistanceMap`'s reverse map: the BFS frontiers grouped
by depth, outermost layer first.  Modelled from the spec. -/
def revDistanceMap (a : Area) : List Area :=
  peelLayers a.card a

theorem peelLayers_nil (n : ℕ) : peelLayers n ∅ = [] := by
  cases n with
  | zero => rfl
  | succ n => simp [peelLayers]

theorem peelLayers_ne_nil {n : ℕ} {a : Area} (hn : 0 < n) (h : a.Nonempty) :
    peelLayers n a ≠ [] := by
  cases n with
  | zero => omega
  | succ n => simp [peelLayers, h]

/-- Every peeled layer is a nonempty subset of the area being peeled. -/
theorem peelLayers_layers {n : ℕ} {a : Area} :
    ∀ l ∈ peelLayers n a, l.Nonempty ∧ l ⊆ a := by
  induction n generalizing a with
  | zero => intro l hl; simp [peelLayers] at hl
  | succ n ih =>
    intro l hl
    by_cases h : a.Nonempty
    · simp only [peelLayers, dif_pos h, List.mem_cons] at hl
      rcases hl with rfl | hl
      · exact ⟨borderInside_nonempty h, borderInside_subset a⟩
      · obtain ⟨hne, hsub⟩ := ih l hl
        exact ⟨hne, hsub.trans (Finset.sdiff_subset)⟩
    · simp [peelLayers, h] at hl

/-- The deepest BFS layer of a nonempty area exists, is nonempty and is
contained in the area. -/
theorem revDistanceMap_getLast {a : Area} (h : a.Nonempty) :
    ∃ l, (revDistanceMap a).getLast? = some l ∧ l.Nonempty ∧ l ⊆ a := by
  have hne : revDistanceMap a ≠ [] :=
    peelLayers_ne_nil (Finset.card_pos.mpr h) h
  obtain ⟨l, hl⟩ := Option.isSome_iff_exists.mp (List.getLast?_isSome.mpr hne)
  have hmem : l ∈ revDistanceMap a := by
    obtain ⟨h', heq⟩ :=
      List.mem_getLast?_eq_getLast (l := revDistanceMap a) (x := l) hl
    exact heq ▸ List.getLast_mem h'
  exact ⟨l, hl, peelLayers_layers l hmem⟩

/-- One growth step of reachability inside `a`: add the neighbours of
the seed that lie in `a`. -/
def grow (a s : Area) : Area :=
  s ∪ (s.biUnion neighbours) ∩ a

/-- Fuel-bounded reachability closure inside `a`. -/
def reachAux (a : Area) : ℕ → Area → Area
  | 0, s => s
  | n + 1, s => reachAux a n (grow a s)

/-- `rmg::connectedAreas`' component containing `t`: all tiles of `a`
reachable from `t` through the neighbourhood relation.  Modelled from
the spec: connected-component decomposition of an area. -/
def reach (a : Area) (t : Tile) : Area :=
  reachAux a a.card {t}

theorem subset_grow (a s : Area) : s ⊆ grow a s :=
  Finset.subset_union_left

theorem grow_subset {a s : Area} (h : s ⊆ a) : grow a s ⊆ a :=
  Finset.union_subset h Finset.inter_subset_right

theorem subset_reachAux (a : Area) (n : ℕ) (s : Area) : s ⊆ reachAux a n s := by
  induction n generalizing s with
  | zero => exact fun _ h => h
  | succ n ih => exact (subset_grow a s).trans (ih (grow a s))

theorem reachAux_subset {a : Area} (n : ℕ) {s : Area} (h : s ⊆ a) :
    reachAux a n s ⊆ a := by
  induction n generalizing s with
  | zero => exact h
  | succ n ih => exact ih (grow_subset h)

theorem mem_reach (a : Area) (t : Tile) : t ∈ reach a t :=
  subset_reachAux a a.card {t} (Finset.mem_singleton_self t)

theorem reach_subset {a : Area} {t : Tile} (h : t ∈ a) : reach a t ⊆ a :=
  reachAux_subset a.card (Finset.singleton_subset_iff.mpr h)

/-- Fuel-bounded connected-component decomposition: strip the component
of the least remaining tile until the area is exhausted. -/
def componentsAux : ℕ → Area → List Area
  | 0, _ => []
  | n + 1, a =>
    if h : a.Nonempty then
      reach a (a.min' h) :: componentsAux n (a \ reach a (a.min' h))
    else []

/-- `rmg::connectedAreas` — the maximal connected components of an
area.  Modelled from the spec (the `computeBorders` flag of the source
call only controls border annotation and does not change the
decomposition). -/
def connectedAreas (a : Area) : List Area :=
  componentsAux a.card a

/-- The components produced by `componentsAux` are nonempty subsets of
the area, pairwise disjoint, and their union gives back the area. -/
theorem componentsAux_spec {n : ℕ} :
    ∀ {a : Area}, a.card ≤ n →
      (∀ c ∈ componentsAux n a, c.Nonempty ∧ c ⊆ a) ∧
      (componentsAux n a).foldr (· ∪ ·) ∅ = a ∧
      (componentsAux n a).Pairwise (fun c d => Disjoint c d) := by
  induction n with
  | zero =>
    intro a hcard
    have : a = ∅ := Finset.card_eq_zero.mp (Nat.le_zero.mp hcard)
    subst this
    simp [componentsAux]
  | succ n ih =>
    intro a hcard
    by_cases h : a.Nonempty
    · set t := a.min' h with ht
      set c := reach a t with hc
      have hcsub : c ⊆ a := reach_subset (a.min'_mem h)
      have hcne : c.Nonempty := ⟨t, mem_reach a t⟩
      have hrest : (a \ c).card ≤ n := by
        have hlt : (a \ c).card < a.card := by
          apply Finset.card_lt_card
          constructor
          · exact Finset.sdiff_subset
          · intro hsub
            obtain ⟨x, hx⟩ := hcne
            have : x ∈ a \ c := hsub (hcsub hx)
            exact (Finset.mem_sdiff.mp this).2 hx
        omega
      obtain ⟨hmem, hunion, hpair⟩ := ih hrest
      have hrec : componentsAux (n + 1) a = c :: componentsAux n (a \ c) := by
        simp [componentsAux, h, ← ht, ← hc]
      refine ⟨?_, ?_, ?_⟩
      · intro d hd
        rw [hrec, List.mem_cons] at hd
        rcases hd with rfl | hd
        · exact ⟨hcne, hcsub⟩
        · obtain ⟨hne, hsub⟩ := hmem d hd
          exact ⟨hne, hsub.trans Finset.sdiff_subset⟩
      · rw [hrec, List.foldr_cons, hunion]
        exact Finset.union_sdiff_of_subset hcsub
      · rw [hrec]
        refine List.pairwise_cons.mpr ⟨?_, hpair⟩
        intro d hd
        have hdsub : d ⊆ a \ c := (hmem d hd).2
        exact Finset.disjoint_left.mpr
          (fun {x} hx hxd => (Finset.mem_sdiff.mp (hdsub hxd)).2 hx)
    · have : a = ∅ := Finset.not_nonempty_iff_eq_empty.mp h
      subst this
      simp [componentsAux]

theorem connectedAreas_spec (a : Area) :
    (∀ c ∈ connectedAreas a, c.Nonempty ∧ c ⊆ a) ∧
    (connectedAreas a).foldr (· ∪ ·) ∅ = a ∧
    (connectedAreas a).Pairwise (fun c d => Disjoint c d) :=
  componentsAux_spec le_rfl

/-- `ETileType` occupancy states of the grid. -/
inductive TileType where
  | free
  | possible
  | blocked
  | used
deriving DecidableEq, Repr

/-- The grid consumed by the modificator (`RmgMap`): which tiles are on
the map, each tile's owning-zone id and its occupancy state.  Modelled
from the spec (the grid implementation is not part of the provided
sources). -/
structure RmgMap where
  onMap : Area
  zoneID : Tile → ℕ
  occupied : Tile → TileType

/-- `RmgMap::isPossible`. -/
def RmgMap.isPossible (m : RmgMap) (t : Tile) : Prop :=
  m.occupied t = TileType.possible

instance (m : RmgMap) (t : Tile) : Decidable (m.isPossible t) := by
  unfold RmgMap.isPossible; infer_instance

/-- `ETemplateZoneType`. -/
inductive ZoneType where
  | playerStart
  | cpuStart
  | treasure
  | junction
  | water
  | sealed
deriving DecidableEq, Repr

/-- The requesting land zone as seen by `waterRoute`: its id, template
type, tentative and guaranteed-walkable areas, and its optional
collaborators — the `WaterAdopter` (carrying the coast tiles) and the
`TownPlacer` (carrying the total town count).  Modelled from the spec
for the parts outside the provided sources. -/
structure LandZone where
  id : ℕ
  zType : ZoneType
  areaPossible : Area
  freePaths : Area
  adopter : Option Area
  towns : Option ℕ
deriving DecidableEq

/-- `WaterProxy::Lake`: the connected water body, its BFS layer
structure, the border tiles indexed by neighbour zone id (an
association list ordered like the `std::map` of the source), and the
zone ids whose connection the template keeps. -/
structure Lake where
  area : Area
  distanceMap : List (Tile × ℕ)
  reverseDistanceMap : List Area
  neighbourZones : List (ℕ × Area)
  keepConnections : Finset ℕ
deriving DecidableEq

/-- Border tiles of the lake toward zone `z`
(`lake.neighbourZones.at(z)`). -/
def Lake.nbr (lake : Lake) (z : ℕ) : Area :=
  (((lake.neighbourZones.find? (fun p => decide (p.1 = z))).map Prod.snd)).getD ∅

/-- Whether zone `z` is a key of `neighbourZones`
(`lake.neighbourZones.count(z)`). -/
def Lake.hasNbr (lake : Lake) (z : ℕ) : Bool :=
  (lake.neighbourZones.find? (fun p => decide (p.1 = z))).isSome

/-- `RouteInfo` — result of a connectivity attempt. -/
structure RouteInfo where
  blocked : Area
  visitable : Tile
  boarding : Tile
  water : Area
deriving DecidableEq

/-- A default-constructed `RouteInfo` (empty areas, zero tiles). -/
def RouteInfo.empty : RouteInfo :=
  ⟨∅, Tile.mk 0 0 0, Tile.mk 0 0 0, ∅⟩

/-- The most significant decimal digit of a number, with explicit fuel
so that evaluation is structural. -/
def leadDigitAux : ℕ → ℕ → ℕ
  | 0, z => z % 10
  | n + 1, z => if z < 10 then z else leadDigitAux n (z / 10)

/-- Leading decimal digit of a zone id. -/
def leadDigit (z : ℕ) : ℕ :=
  leadDigitAux z z

/-- The first character of `std::to_string(zoneId)`: the character of
the leading decimal digit. -/
def zoneChar (z : ℕ) : Char :=
  Char.ofNat (48 + leadDigit z)

theorem leadDigitAux_lt_ten {n z : ℕ} (h : z ≤ n ∨ z < 10) :
    leadDigitAux n z < 10 := by
  induction n generalizing z with
  | zero => simpa [leadDigitAux] using Nat.mod_lt z (by omega)
  | succ n ih =>
    by_cases hz : z < 10
    · simpa [leadDigitAux, hz] using hz
    · have : z / 10 ≤ n ∨ z / 10 < 10 := by
        rcases h with h | h
        · left; omega
        · omega
      simpa [leadDigitAux, hz] using ih this

theorem leadDigit_lt_ten (z : ℕ) : leadDigit z < 10 :=
  leadDigitAux_lt_ten (Or.inl le_rfl)

/-- A zone-id marker is a decimal digit, never the connector
marker `'='`. -/
theorem zoneChar_ne_eq (z : ℕ) : zoneChar z ≠ '=' := by
  have h := leadDigit_lt_ten z
  unfold zoneChar
  interval_cases h : leadDigit z <;> decide

/-- Build one `Lake` record for a connected component `a`, as the body
of the `collectLakes` loop does: the distance topology of the
component, and the outward border tiles that are on the map, indexed by
their owning zone in ascending key order. -/
def mkLake (m : RmgMap) (a : Area) : Lake :=
  let outside := (borderOutside a) ∩ m.onMap
  let keys := (outside.image m.zoneID).sort (· ≤ ·)
  { area := a
    distanceMap :=
      ((revDistanceMap a).enum.flatMap
        (fun p => (p.2.sort (· ≤ ·)).map (fun t => (t, p.1))))
    reverseDistanceMap := revDistanceMap a
    neighbourZones := keys.map (fun z => (z, outside.filter (fun t => m.zoneID t = z)))
    keepConnections := ∅ }

/-- State accumulated by `collectLakes`: the lake list, the tile-to-lake
index (`lakeMap`) and the zone's guaranteed-walkable subset
(`zone.freePaths()`), which `collectLakes` may extend. -/
structure CollectResult where
  lakes : List Lake
  lakeMap : Tile → Option ℕ
  freePaths : Area

/-- The tile the source promotes into `freePaths` for a lake that has
no free tile yet: `*reverseDistanceMap[reverseDistanceMap.size() - 1].begin()`,
i.e. the least tile of the deepest BFS layer (as a subsingleton area,
empty only for a degenerate empty lake). -/
def lakeFix (lk : Lake) : Area :=
  match lk.reverseDistanceMap.getLast? with
  | some l => if h : l.Nonempty then {l.min' h} else ∅
  | none => ∅

/-- One iteration of the `collectLakes` loop over a connected
component. -/
def collectStep (m : RmgMap) (st : CollectResult) (a : Area) : CollectResult :=
  let lk := mkLake m a
  { lakes := st.lakes ++ [lk]
    lakeMap := fun t => if t ∈ a then some st.lakes.length else st.lakeMap t
    freePaths :=
      if a ∩ st.freePaths = ∅ then st.freePaths ∪ lakeFix lk else st.freePaths }

/-- `WaterProxy::collectLakes`, run on the zone's merged confirmed area
and its current `freePaths`. -/
def collectLakes (m : RmgMap) (zoneArea freePaths : Area) : CollectResult :=
  (connectedAreas zoneArea).foldl (collectStep m) ⟨[], fun _ => none, freePaths⟩

/-- `WaterProxy::waterKeepConnection`: the first lake bordering both
zones records both ids in its `keepConnections`; returns whether such a
lake exists. -/
def waterKeepConnection (lakes : List Lake) (zoneA zoneB : ℕ) : List Lake × Bool :=
  match lakes with
  | [] => ([], false)
  | lk :: rest =>
    if lk.hasNbr zoneA && lk.hasNbr zoneB then
      ({ lk with keepConnections := insert zoneB (insert zoneA lk.keepConnections) } :: rest,
        true)
    else
      let r := waterKeepConnection rest zoneA zoneB
      (lk :: r.1, r.2)

/-- The out-of-range fallback lake for `lakes[lakeMap.at(t)]`. -/
def dfltLake : Lake :=
  ⟨∅, [], [], [], ∅⟩

/-- `WaterProxy::dump`: single-character classification of a tile. -/
def dump (lakes : List Lake) (lakeMap : Tile → Option ℕ) (t : Tile) : Char :=
  match lakeMap t with
  | none => '?'
  | some i =>
    let lake := lakes.getD i dfltLake
    match lake.neighbourZones.find? (fun p => decide (t ∈ p.2)) with
    | some p => if p.1 ∈ lake.keepConnections then zoneChar p.1 else '='
    | none => '~'

/-- Trace of what `waterRoute` did for one lake: severed the border,
skipped a small lake, or attempted a shipyard/boat placement with the
given outcome. -/
inductive Event where
  | sever
  | skip
  | attemptShipyard (ok : Bool)
  | attemptBoat (ok : Bool)
deriving DecidableEq, Repr

/-- One candidate placement as produced by
`ObjectManager::placeAndConnectObject` for the shipyard: the outward
border of the shipyard's own blocked footprint (guard excluded), the
full object area (guard included), its visitable position, and the
validity and area of the path the primitive returns.  Modelled from the
spec: the Object Manager is an external collaborator. -/
structure Placement where
  shipyardOut : Area
  objArea : Area
  visitable : Tile
  pathValid : Bool
  pathArea : Area
deriving DecidableEq

/-- The external collaborators consulted by the placement searches,
modelled from the spec: presence of the Object Managers, the boat type
registry, the per-tile nearest-object distance of the grid, and the
placement/path-search primitives (`none` models an invalid path). -/
structure Env where
  zoneManager : Bool
  landManager : Bool
  sailingBoatTypes : Finset ℕ
  nearestObjectDistance : Tile → ℕ
  boatPlace : Area → Option (Area × Tile × Area)
  landPath : Tile → Option Area
  shipCandidates : Tile → List Placement
  shipLandPath : Tile → Option Area
  waterPath : Area → Option Area

/-- The mutable state threaded through `waterRoute`: the grid, the
requesting land zone, the water zone's tentative and walkable areas,
the shared `RouteInfo` and the event trace. -/
structure WRState where
  m : RmgMap
  dst : LandZone
  zonePossible : Area
  zoneFree : Area
  info : RouteInfo
  events : List Event

/-- The sever loop of `waterRoute`: every border tile that is currently
`POSSIBLE` becomes `BLOCKED`. -/
def severBlock (m : RmgMap) (border : Area) : RmgMap :=
  { m with
    occupied := fun t =>
      if t ∈ border ∧ m.occupied t = TileType.possible then TileType.blocked
      else m.occupied t }

/-- The post-commit loop of `placeShipyard`: every tile of the set that
is on the map and currently `POSSIBLE` becomes `BLOCKED`. -/
def blockOnMap (m : RmgMap) (s : Area) : RmgMap :=
  { m with
    occupied := fun t =>
      if t ∈ s ∧ t ∈ m.onMap ∧ m.occupied t = TileType.possible then TileType.blocked
      else m.occupied t }

/-- `Zone::connectPath` on an area pair, as the spec describes the
commit of a validated path: the path tiles leave the tentative area and
join the guaranteed-walkable one.  Modelled from the spec. -/
def connectPath (possible free pathArea : Area) : Area × Area :=
  (possible \ pathArea, free ∪ pathArea)

/-- The custom acceptance function `placeShipyard` passes to
`ObjectManager::placeAndConnectObject` (the lambda of the source):
`-1` rejects the candidate, `1` accepts it. -/
def shipyardAccept (shipyardOut : Area) (boardingPosition : Tile)
    (shipPositions : Area) : Int :=
  if boardingPosition ∉ shipyardOut ∨ shipyardOut ∩ shipPositions = ∅ then -1
  else 1

/-- The candidate loop of `placeBoat`, with fuel equal to the candidate
count (each failing iteration erases the tried boarding position). -/
def boatLoop (env : Env) (waterAvailable : Area) :
    ℕ → Area → WRState → Bool × WRState
  | 0, bps, st => (bps ≠ ∅, st)
  | n + 1, bps, st =>
    if h : bps = ∅ then (false, st)
    else
      let bp := bps.min' (Finset.nonempty_of_ne_empty h)
      let ships := borderOutside {bp} ∩ waterAvailable
      if ships = ∅ then boatLoop env waterAvailable n (bps.erase bp) st
      else
        match env.boatPlace ships, env.landPath bp with
        | some (objArea, vis, pArea), some lpArea =>
          let zc := connectPath st.zonePossible st.zoneFree pArea
          let lc := connectPath st.dst.areaPossible st.dst.freePaths lpArea
          (true,
            { st with
              info := ⟨objArea, vis, bp, ships⟩
              zonePossible := zc.1
              zoneFree := zc.2
              dst := { st.dst with areaPossible := lc.1, freePaths := lc.2 } })
        | _, _ => boatLoop env waterAvailable n (bps.erase bp) st

/-- `WaterProxy::placeBoat`. -/
def placeBoat (env : Env) (st : WRState) (lake : Lake) : Bool × WRState :=
  if !env.zoneManager then (false, st)
  else if env.sailingBoatTypes = ∅ then (false, st)
  else
    let waterAvailable := st.zonePossible ∪ st.zoneFree
    let coast := lake.nbr st.dst.id ∩ (st.dst.areaPossible ∪ st.dst.freePaths)
    let bps := coast.filter (fun t =>
      ¬ env.nearestObjectDistance t ≤ 3 ∧ borderOutside {t} ∩ waterAvailable ≠ ∅)
    boatLoop env waterAvailable bps.card bps st

/-- The candidate loop of `placeShipyard`. -/
def shipLoop (env : Env) (waterAvailable : Area) :
    ℕ → Area → WRState → Bool × WRState
  | 0, bps, st => (bps ≠ ∅, st)
  | n + 1, bps, st =>
    if h : bps = ∅ then (false, st)
    else
      let bp := bps.min' (Finset.nonempty_of_ne_empty h)
      let ships := borderOutside {bp} ∩ waterAvailable
      if ships = ∅ then shipLoop env waterAvailable n (bps.erase bp) st
      else
        match (env.shipCandidates bp).find?
            (fun p => decide (0 < shipyardAccept p.shipyardOut bp ships)) with
        | none => shipLoop env waterAvailable n (bps.erase bp) st
        | some p =>
          match p.pathValid, env.shipLandPath bp,
              env.waterPath
                (ships \ ((borderOutside p.objArea ∩ waterAvailable) \ ships)) with
          | true, some lpArea, some wpArea =>
            let lc1 := connectPath st.dst.areaPossible st.dst.freePaths p.pathArea
            let lc2 := connectPath lc1.1 lc1.2 lpArea
            let zc := connectPath st.zonePossible st.zoneFree wpArea
            (true,
              { st with
                info := ⟨p.objArea, p.visitable, bp,
                  ships \ ((borderOutside p.objArea ∩ waterAvailable) \ ships)⟩
                dst := { st.dst with areaPossible := lc2.1, freePaths := lc2.2 }
                zonePossible := zc.1 \ ((borderOutside p.objArea ∩ waterAvailable) \ ships)
                zoneFree := zc.2
                m := blockOnMap st.m ((borderOutside p.objArea ∩ waterAvailable) \ ships) })
          | _, _, _ => shipLoop env waterAvailable n (bps.erase bp) st

/-- `WaterProxy::placeShipyard`. -/
def placeShipyard (env : Env) (st : WRState) (lake : Lake) : Bool × WRState :=
  if !env.landManager then (false, st)
  else
    let waterAvailable := (st.zonePossible ∪ st.zoneFree) ∩ lake.area
    let coast := lake.nbr st.dst.id ∩ (st.dst.areaPossible ∪ st.dst.freePaths)
    let bps := coast.filter (fun t => borderOutside {t} ∩ waterAvailable ≠ ∅)
    shipLoop env waterAvailable bps.card bps st

/-- The body of the `waterRoute` loop for a single lake: sever a
connection the template does not keep, skip a small lake, otherwise
choose shipyard-first or boat-only strategy. -/
def routeLake (env : Env) (st : WRState) (lake : Lake) : WRState :=
  if lake.hasNbr st.dst.id then
    if st.dst.id ∉ lake.keepConnections then
      let border := lake.nbr st.dst.id
      { st with
        m := severBlock st.m border
        dst := { st.dst with areaPossible := st.dst.areaPossible \ border }
        events := st.events ++ [Event.sever] }
    else if lake.area.card < 25 then
      { st with events := st.events ++ [Event.skip] }
    else if st.dst.zType = ZoneType.playerStart ∨ st.dst.zType = ZoneType.cpuStart ∨
        st.dst.towns.getD 0 ≠ 0 then
      let r := placeShipyard env st lake
      if r.1 then { r.2 with events := st.events ++ [Event.attemptShipyard true] }
      else
        let b := placeBoat env r.2 lake
        { b.2 with
          events := st.events ++ [Event.attemptShipyard false, Event.attemptBoat b.1] }
    else
      let b := placeBoat env st lake
      { b.2 with events := st.events ++ [Event.attemptBoat b.1] }
  else st

/-- The `waterRoute` loop over the lake list, each lake consulting its
own view of the external collaborators. -/
def waterRouteAux (env : ℕ → Env) : ℕ → List Lake → WRState → WRState
  | _, [], st => st
  | i, lk :: rest, st => waterRouteAux env (i + 1) rest (routeLake (env i) st lk)

/-- `WaterProxy::waterRoute`: early out when the destination zone has
no `WaterAdopter` or no coast tiles, else process every lake. -/
def waterRoute (env : ℕ → Env) (st : WRState) (lakes : List Lake) : WRState :=
  match st.dst.adopter with
  | none => st
  | some coast => if coast = ∅ then st else waterRouteAux env 0 lakes st

theorem find?_eq_some_of_unique {α : Type} {p : α → Bool} :
    ∀ {l : List α} {x : α}, x ∈ l → p x = true →
      (∀ y ∈ l, p y = true → y = x) → l.find? p = some x := by
  intro l
  induction l with
  | nil => intro x hx; simp at hx
  | cons a l ih =>
    intro x hx hpx huniq
    rcases List.mem_cons.mp hx with rfl | hx
    · simp [List.find?_cons_of_pos _ hpx]
    · by_cases hpa : p a = true
      · have ha : a = x := huniq a (List.mem_cons_self a l) hpa
        subst ha
        simp [List.find?_cons_of_pos _ hpa]
      · rw [List.find?_cons_of_neg _ (by simpa using hpa)]
        exact ih hx hpx (fun y hy hpy => huniq y (List.mem_cons_of_mem a hy) hpy)

/-- C7: the acceptance function `placeShipyard` hands to the placement
primitive scores a candidate positively exactly when the shipyard's
outward border contains the chosen boarding tile and meets the
adjacent-water tile set, and otherwise rejects it with `-1`. -/
theorem shipyard_accept_iff (out : Area) (bp : Tile) (ships : Area) :
    (0 < shipyardAccept out bp ships ↔ bp ∈ out ∧ (out ∩ ships).Nonempty) ∧
    (¬ (bp ∈ out ∧ (out ∩ ships).Nonempty) → shipyardAccept out bp ships = -1) := by
  unfold shipyardAccept
  by_cases h1 : bp ∈ out <;> by_cases h2 : out ∩ ships = ∅ <;>
    simp [h1, h2, Finset.nonempty_iff_ne_empty]

theorem shipyard_accept_iff_witness :
    shipyardAccept ∅ (Tile.mk 0 0 0) ∅ = -1 :=
  (shipyard_accept_iff ∅ (Tile.mk 0 0 0) ∅).2 (by decide)

/-- The concrete state refuting claim C1: one lake whose border to zone
`7` holds the tile `(1,0,0)`, the tile indexed to that lake, and no kept
connection. -/
def c1Lake : Lake :=
  ⟨{Tile.mk 0 0 0}, [], [], [(7, {Tile.mk 1 0 0})], ∅⟩

def c1LakeMap : Tile → Option ℕ :=
  fun t => if t = Tile.mk 1 0 0 then some 0 else none

/-- C1 counterexample: tile `(1,0,0)` lies in the lake's border set to
zone `7` and `7` is not in `keepConnections`, yet `dump` returns the
connector marker `'='` and not the zone-id marker `'7'` — the source
returns the zone-id character for a *kept* connection and `'='` for a
severed one, the opposite of the claim. -/
theorem dump_markers_cex :
    (7 : ℕ) ∉ c1Lake.keepConnections ∧
    Tile.mk 1 0 0 ∈ c1Lake.nbr 7 ∧
    dump [c1Lake] c1LakeMap (Tile.mk 1 0 0) = '=' ∧
    dump [c1Lake] c1LakeMap (Tile.mk 1 0 0) ≠ zoneChar 7 := by
  refine ⟨by decide, by decide, by decide, by decide⟩

/-- C1 as amended: for a tile of a lake's border-to-`z` set (the tile
indexed to that lake, `z` its unique matching border entry), `dump`
returns the zone-id marker when `z` *is* kept and the connector marker
`'='` when it is *not*; the zone-id marker is a digit, never `'='`; and
after `waterKeepConnection A B` succeeds, some lake bordering both `A`
and `B` keeps both ids, every other lake is unchanged, and `dump` on a
tile of that lake's border to `A` yields the zone-id marker of `A`, not
the kept marker.  `dump` is a pure function of the state. -/
theorem dump_markers (lakes : List Lake) (lm : Tile → Option ℕ) (t : Tile)
    (i : ℕ) (lake : Lake) (z : ℕ) (ar : Area)
    (hlm : lm t = some i) (hget : lakes.getD i dfltLake = lake)
    (hmem : (z, ar) ∈ lake.neighbourZones) (ht : t ∈ ar)
    (huniq : ∀ p ∈ lake.neighbourZones, t ∈ p.2 → p = (z, ar)) :
    (dump lakes lm t =
      (if z ∈ lake.keepConnections then zoneChar z else '=')) ∧
    zoneChar z ≠ '=' ∧
    (∀ lakes' A B, (waterKeepConnection lakes' A B).2 = true →
      ∃ j lk', j < lakes'.length ∧
        (waterKeepConnection lakes' A B).1.getD j dfltLake = lk' ∧
        A ∈ lk'.keepConnections ∧ B ∈ lk'.keepConnections ∧
        lk'.hasNbr A = true ∧ lk'.hasNbr B = true ∧
        lk'.neighbourZones = (lakes'.getD j dfltLake).neighbourZones ∧
        (∀ k, k ≠ j →
          (waterKeepConnection lakes' A B).1.getD k dfltLake =
            lakes'.getD k dfltLake) ∧
        (∀ lm' t' ar',
          lm' t' = some j → (A, ar') ∈ lk'.neighbourZones → t' ∈ ar' →
          (∀ p ∈ lk'.neighbourZones, t' ∈ p.2 → p = (A, ar')) →
          dump (waterKeepConnection lakes' A B).1 lm' t' = zoneChar A)) := by
  have hfind : ∀ (lk : Lake) (z' : ℕ) (ar' : Area) (t' : Tile),
      (z', ar') ∈ lk.neighbourZones → t' ∈ ar' →
      (∀ p ∈ lk.neighbourZones, t' ∈ p.2 → p = (z', ar')) →
      lk.neighbourZones.find? (fun p => decide (t' ∈ p.2)) = some (z', ar') := by
    intro lk z' ar' t' hmem' ht' huniq'
    exact find?_eq_some_of_unique hmem' (by simpa using ht')
      (fun y hy hpy => huniq' y hy (by simpa using hpy))
  have hdump : ∀ (lakes₀ : List Lake) (lm₀ : Tile → Option ℕ) (t₀ : Tile)
      (i₀ : ℕ) (lake₀ : Lake) (z₀ : ℕ) (ar₀ : Area),
      lm₀ t₀ = some i₀ → lakes₀.getD i₀ dfltLake = lake₀ →
      (z₀, ar₀) ∈ lake₀.neighbourZones → t₀ ∈ ar₀ →
      (∀ p ∈ lake₀.neighbourZones, t₀ ∈ p.2 → p = (z₀, ar₀)) →
      dump lakes₀ lm₀ t₀ =
        (if z₀ ∈ lake₀.keepConnections then zoneChar z₀ else '=') := by
    intro lakes₀ lm₀ t₀ i₀ lake₀ z₀ ar₀ hlm₀ hget₀ hmem₀ ht₀ huniq₀
    unfold dump
    rw [hlm₀]
    simp only [hget₀, hfind lake₀ z₀ ar₀ t₀ hmem₀ ht₀ huniq₀]
  refine ⟨hdump lakes lm t i lake z ar hlm hget hmem ht huniq,
    zoneChar_ne_eq z, ?_⟩
  intro lakes' A B hsucc
  induction lakes' with
  | nil => simp [waterKeepConnection] at hsucc
  | cons lk rest ih =>
    by_cases hboth : lk.hasNbr A && lk.hasNbr B
    · obtain ⟨hnA', hnB'⟩ : lk.hasNbr A = true ∧ lk.hasNbr B = true := by
        simpa using hboth
      set lkU : Lake :=
        { lk with keepConnections := insert B (insert A lk.keepConnections) } with hlkU
      have hw : waterKeepConnection (lk :: rest) A B = (lkU :: rest, true) := by
        simp [waterKeepConnection, hboth, hlkU]
      refine ⟨0, lkU, by simp, by simp [hw], ?_, ?_, ?_, ?_, ?_, ?_, ?_⟩
      · simp [hlkU]
      · simp [hlkU]
      · simpa [hlkU, Lake.hasNbr] using hnA'
      · simpa [hlkU, Lake.hasNbr] using hnB'
      · simp [hlkU]
      · intro k hk
        rw [hw]
        cases k with
        | zero => omega
        | succ k => simp
      · intro lm' t' ar' hlm' hmem' ht' huniq'
        have hzc := hdump (waterKeepConnection (lk :: rest) A B).1 lm' t' 0
          lkU A ar' hlm' (by simp [hw]) hmem' ht' huniq'
        rw [hzc]
        simp [hlkU]
    · have hs : (waterKeepConnection rest A B).2 = true := by
        simpa [waterKeepConnection, hboth] using hsucc
      obtain ⟨j, lk', hj, hgetj, hA, hB, hnA, hnB, hnz, hoth, hdmp⟩ := ih hs
      refine ⟨j + 1, lk', by simpa using hj, ?_, hA, hB, hnA, hnB, ?_, ?_, ?_⟩
      · simpa [waterKeepConnection, hboth] using hgetj
      · simpa [waterKeepConnection, hboth] using hnz
      · intro k hk
        match k with
        | 0 => simp [waterKeepConnection, hboth]
        | k + 1 =>
          have := hoth k (by omega)
          simpa [waterKeepConnection, hboth] using this
      · intro lm' t' ar' hlm' hmem' ht' huniq'
        have := hdump (waterKeepConnection (lk :: rest) A B).1 lm' t' (j + 1)
          lk' A ar' hlm' (by simpa [waterKeepConnection, hboth] using hgetj)
          hmem' ht' huniq'
        rw [this]
        simp [hA]

/-- The condition of the source's strategy choice: the land zone is a
player or CPU start zone, or it already hosts at least one town. -/
def startOrTown (dst : LandZone) : Prop :=
  dst.zType = ZoneType.playerStart ∨ dst.zType = ZoneType.cpuStart ∨
    dst.towns.getD 0 ≠ 0

instance (dst : LandZone) : Decidable (startOrTown dst) := by
  unfold startOrTown; infer_instance

/-- C2 as amended: for a lake bordering the requesting zone whose
connection is not kept, the `waterRoute` loop body severs it — every
border tile that is currently Possible becomes Blocked (tiles in any
other occupancy state are left as they are), all border tiles leave the
zone's tentative area, and no placement is attempted (the shared
`RouteInfo` is untouched and the only recorded action is the sever). -/
theorem waterroute_sever (env : Env) (st : WRState) (lake : Lake)
    (hnbr : lake.hasNbr st.dst.id = true)
    (hkeep : st.dst.id ∉ lake.keepConnections) :
    ((routeLake env st lake).dst.areaPossible
        = st.dst.areaPossible \ lake.nbr st.dst.id) ∧
    (∀ t ∈ lake.nbr st.dst.id, st.m.isPossible t →
        (routeLake env st lake).m.occupied t = TileType.blocked) ∧
    (∀ t, t ∉ lake.nbr st.dst.id ∨ ¬ st.m.isPossible t →
        (routeLake env st lake).m.occupied t = st.m.occupied t) ∧
    (routeLake env st lake).info = st.info ∧
    (routeLake env st lake).events = st.events ++ [Event.sever] ∧
    (routeLake env st lake).zonePossible = st.zonePossible ∧
    (routeLake env st lake).zoneFree = st.zoneFree := by
  have hr : routeLake env st lake =
      { st with
        m := severBlock st.m (lake.nbr st.dst.id)
        dst := { st.dst with
          areaPossible := st.dst.areaPossible \ lake.nbr st.dst.id }
        events := st.events ++ [Event.sever] } := by
    simp [routeLake, hnbr, hkeep]
  refine ⟨by rw [hr], ?_, ?_, by rw [hr], by rw [hr], by rw [hr], by rw [hr]⟩
  · intro t htb htp
    rw [hr]
    simp only [severBlock]
    rw [if_pos ⟨htb, htp⟩]
  · intro t ht
    rw [hr]
    simp only [severBlock]
    rw [if_neg]
    rcases ht with ht | ht
    · exact fun hc => ht hc.1
    · exact fun hc => ht hc.2

def cexTileP : Tile := Tile.mk 2 0 0

def cexTileF : Tile := Tile.mk 3 0 0

def c2Map : RmgMap :=
  ⟨∅, fun _ => 0, fun t => if t = cexTileP then TileType.possible else TileType.free⟩

def c2Dst : LandZone :=
  ⟨1, ZoneType.treasure, {cexTileP, cexTileF}, ∅, some {Tile.mk 9 9 0}, none⟩

def c2Lake : Lake :=
  ⟨∅, [], [], [(1, {cexTileP, cexTileF})], ∅⟩

def c2Env : Env :=
  ⟨false, false, ∅, fun _ => 0, fun _ => none, fun _ => none, fun _ => [],
    fun _ => none, fun _ => none⟩

def c2St : WRState :=
  ⟨c2Map, c2Dst, ∅, ∅, RouteInfo.empty, []⟩

/-- C2 counterexample: in the sever branch, a border tile whose
occupancy is Free (not Possible) is left Free by `waterRoute` — the
source only re-marks tiles that pass the `isPossible` check, so not
every border tile ends up Blocked as the claim states. -/
theorem waterroute_sever_cex :
    cexTileF ∈ c2Lake.nbr 1 ∧
    (1 : ℕ) ∉ c2Lake.keepConnections ∧
    c2St.dst.id = 1 ∧
    (waterRoute (fun _ => c2Env) c2St [c2Lake]).m.occupied cexTileF
      = TileType.free ∧
    TileType.free ≠ TileType.blocked := by
  exact ⟨by decide, by decide, by decide, by decide, by decide⟩

theorem waterroute_sever_witness :
    (routeLake c2Env c2St c2Lake).m.occupied cexTileP = TileType.blocked :=
  (waterroute_sever c2Env c2St c2Lake (by decide) (by decide)).2.1
    cexTileP (by decide) (by decide)

/-- C3: a lake with a kept connection but fewer than 25 tiles is
skipped: the loop body records only the skip, attempts neither boat nor
shipyard, leaves the shared `RouteInfo` (and all other state) unchanged
and returns normally; `waterRoute` on such a single lake therefore
returns with an unchanged `RouteInfo`. -/
theorem waterroute_small_lake (env : Env) (st : WRState) (lake : Lake)
    (hnbr : lake.hasNbr st.dst.id = true)
    (hkeep : st.dst.id ∈ lake.keepConnections)
    (hsmall : lake.area.card < 25) :
    routeLake env st lake = { st with events := st.events ++ [Event.skip] } ∧
    (∀ envs : ℕ → Env, ∀ coast : Area,
      st.dst.adopter = some coast → coast ≠ ∅ →
        waterRoute envs st [lake]
          = { st with events := st.events ++ [Event.skip] }) := by
  have hstep : ∀ e : Env,
      routeLake e st lake = { st with events := st.events ++ [Event.skip] } := by
    intro e
    simp [routeLake, hnbr, hkeep, hsmall]
  refine ⟨hstep env, ?_⟩
  intro envs coast hcoast hne
  unfold waterRoute
  rw [hcoast]
  simp [hne, waterRouteAux, hstep (envs 0)]

def c3Lake : Lake :=
  ⟨{Tile.mk 0 0 0}, [], [], [(1, {cexTileP})], {1}⟩

theorem waterroute_small_lake_witness :
    routeLake c2Env c2St c3Lake = { c2St with events := [Event.skip] } :=
  (waterroute_small_lake c2Env c2St c3Lake (by decide) (by decide) (by decide)).1

/-- C4: for a kept-connection lake of at least 25 tiles, the loop body
attempts a shipyard first exactly when the land zone is a player/CPU
start zone or hosts a town, attempting a boat only if the shipyard
attempt failed; in every other case it attempts the boat directly and
never a shipyard (the event trace records the attempts). -/
theorem waterroute_strategy (env : Env) (st : WRState) (lake : Lake)
    (hnbr : lake.hasNbr st.dst.id = true)
    (hkeep : st.dst.id ∈ lake.keepConnections)
    (hbig : ¬ lake.area.card < 25) :
    (startOrTown st.dst → (placeShipyard env st lake).1 = true →
        routeLake env st lake =
          { (placeShipyard env st lake).2 with
            events := st.events ++ [Event.attemptShipyard true] }) ∧
    (startOrTown st.dst → (placeShipyard env st lake).1 = false →
        routeLake env st lake =
          { (placeBoat env (placeShipyard env st lake).2 lake).2 with
            events := st.events ++ [Event.attemptShipyard false,
              Event.attemptBoat
                (placeBoat env (placeShipyard env st lake).2 lake).1] }) ∧
    (¬ startOrTown st.dst →
        routeLake env st lake =
          { (placeBoat env st lake).2 with
            events := st.events ++ [Event.attemptBoat (placeBoat env st lake).1] }) := by
  have hsot' : ∀ h : startOrTown st.dst,
      st.dst.zType = ZoneType.playerStart ∨ st.dst.zType = ZoneType.cpuStart ∨
        st.dst.towns.getD 0 ≠ 0 := fun h => h
  have hnsot' : ∀ h : ¬ startOrTown st.dst,
      ¬ (st.dst.zType = ZoneType.playerStart ∨ st.dst.zType = ZoneType.cpuStart ∨
        st.dst.towns.getD 0 ≠ 0) := fun h => h
  refine ⟨?_, ?_, ?_⟩
  · intro hsot hship
    unfold routeLake
    rw [if_pos hnbr, if_neg (not_not_intro hkeep), if_neg hbig, if_pos (hsot' hsot)]
    simp [hship]
  · intro hsot hship
    unfold routeLake
    rw [if_pos hnbr, if_neg (not_not_intro hkeep), if_neg hbig, if_pos (hsot' hsot)]
    simp [hship]
  · intro hsot
    unfold routeLake
    rw [if_pos hnbr, if_neg (not_not_intro hkeep), if_neg hbig, if_neg (hnsot' hsot)]

def c4Lake : Lake :=
  ⟨((List.range 25).map (fun k => Tile.mk k 0 0)).toFinset, [], [],
    [(1, {cexTileP})], {1}⟩

theorem waterroute_strategy_witness :
    routeLake c2Env c2St c4Lake =
      { (placeBoat c2Env c2St c4Lake).2 with
        events := c2St.events ++ [Event.attemptBoat (placeBoat c2Env c2St c4Lake).1] } :=
  (waterroute_strategy c2Env c2St c4Lake (by decide) (by decide) (by decide)).2.2
    (by decide)

theorem boatLoop_exhaust {env : Env} {w : Area}
    (hnone : ∀ a, env.boatPlace a = none) :
    ∀ (n : ℕ) (bps : Area) (st : WRState), bps.card ≤ n →
      boatLoop env w n bps st = (false, st) := by
  intro n
  induction n with
  | zero =>
    intro bps st hcard
    have hb : bps = ∅ := Finset.card_eq_zero.mp (Nat.le_zero.mp hcard)
    subst hb
    simp [boatLoop]
  | succ n ih =>
    intro bps st hcard
    by_cases hb : bps = ∅
    · simp [boatLoop, hb]
    · have hbne := Finset.nonempty_of_ne_empty hb
      have hcard' : (bps.erase (bps.min' hbne)).card ≤ n := by
        rw [Finset.card_erase_of_mem (bps.min'_mem hbne)]
        omega
      unfold boatLoop
      rw [dif_neg hb]
      by_cases hs : borderOutside {bps.min' hbne} ∩ w = ∅
      · rw [if_pos hs]
        exact ih _ _ hcard'
      · rw [if_neg hs, hnone]
        exact ih _ _ hcard'

theorem shipLoop_exhaust {env : Env} {w : Area}
    (hnone : ∀ bp, env.shipCandidates bp = []) :
    ∀ (n : ℕ) (bps : Area) (st : WRState), bps.card ≤ n →
      shipLoop env w n bps st = (false, st) := by
  intro n
  induction n with
  | zero =>
    intro bps st hcard
    have hb : bps = ∅ := Finset.card_eq_zero.mp (Nat.le_zero.mp hcard)
    subst hb
    simp [shipLoop]
  | succ n ih =>
    intro bps st hcard
    by_cases hb : bps = ∅
    · simp [shipLoop, hb]
    · have hbne := Finset.nonempty_of_ne_empty hb
      have hcard' : (bps.erase (bps.min' hbne)).card ≤ n := by
        rw [Finset.card_erase_of_mem (bps.min'_mem hbne)]
        omega
      unfold shipLoop
      rw [dif_neg hb]
      by_cases hs : borderOutside {bps.min' hbne} ∩ w = ∅
      · rw [if_pos hs]
        exact ih _ _ hcard'
      · rw [if_neg hs, hnone]
        exact ih _ _ hcard'

/-- C8: placement failure is an ordinary return value.  `placeBoat`
(resp. `placeShipyard`) answers `false` with untouched state when the
water (resp. land) zone has no Object Manager or when every candidate
boarding position is exhausted (here: the placement primitive never
yields a valid path / the manager yields no candidate), and
`waterRoute` returns its state unchanged — an empty `RouteInfo` if it
started empty — when the destination zone has no `WaterAdopter` or no
coast tiles. -/
theorem placement_failure_totality (env : Env) (st : WRState) (lake : Lake) :
    (env.zoneManager = false → placeBoat env st lake = (false, st)) ∧
    (env.landManager = false → placeShipyard env st lake = (false, st)) ∧
    ((∀ a, env.boatPlace a = none) → placeBoat env st lake = (false, st)) ∧
    ((∀ bp, env.shipCandidates bp = []) → placeShipyard env st lake = (false, st)) ∧
    (∀ (envs : ℕ → Env) (lakes : List Lake),
      st.dst.adopter = none → waterRoute envs st lakes = st) ∧
    (∀ (envs : ℕ → Env) (lakes : List Lake),
      st.dst.adopter = some ∅ → waterRoute envs st lakes = st) := by
  refine ⟨?_, ?_, ?_, ?_, ?_, ?_⟩
  · intro hm
    simp [placeBoat, hm]
  · intro hm
    simp [placeShipyard, hm]
  · intro hnone
    by_cases hm : env.zoneManager
    · by_cases hsail : env.sailingBoatTypes = ∅
      · simp [placeBoat, hm, hsail]
      · unfold placeBoat
        rw [if_neg (by simpa using hm), if_neg hsail]
        exact boatLoop_exhaust hnone _ _ _ le_rfl
    · simp [placeBoat, hm]
  · intro hnone
    by_cases hm : env.landManager
    · unfold placeShipyard
      rw [if_neg (by simpa using hm)]
      exact shipLoop_exhaust hnone _ _ _ le_rfl
    · simp [placeShipyard, hm]
  · intro envs lakes hady
    unfold waterRoute
    rw [hady]
  · intro envs lakes hady
    unfold waterRoute
    rw [hady]
    simp

theorem placement_failure_totality_witness :
    placeBoat c2Env c2St c2Lake = (false, c2St) :=
  (placement_failure_totality c2Env c2St c2Lake).1 (by decide)

theorem boatLoop_success {env : Env} {w : Area}
    (hWF : ∀ a r, env.boatPlace a = some r → r.2.1 ∈ r.1) :
    ∀ (n : ℕ) (bps : Area) (st st' : WRState), bps.card ≤ n →
      boatLoop env w n bps st = (true, st') →
      st'.info.water.Nonempty ∧
      st'.info.water ⊆ borderOutside {st'.info.boarding} ∧
      st'.info.visitable ∈ st'.info.blocked := by
  intro n
  induction n with
  | zero =>
    intro bps st st' hcard heq
    have hb : bps = ∅ := Finset.card_eq_zero.mp (Nat.le_zero.mp hcard)
    subst hb
    simp [boatLoop] at heq
  | succ n ih =>
    intro bps st st' hcard heq
    by_cases hb : bps = ∅
    · simp [boatLoop, hb] at heq
    · have hbne := Finset.nonempty_of_ne_empty hb
      have hcard' : (bps.erase (bps.min' hbne)).card ≤ n := by
        rw [Finset.card_erase_of_mem (bps.min'_mem hbne)]
        omega
      unfold boatLoop at heq
      rw [dif_neg hb] at heq
      by_cases hs : borderOutside {bps.min' hbne} ∩ w = ∅
      · rw [if_pos hs] at heq
        exact ih _ _ _ hcard' heq
      · rw [if_neg hs] at heq
        rcases hbp : env.boatPlace (borderOutside {bps.min' hbne} ∩ w) with _ | r
        · rw [hbp] at heq
          exact ih _ _ _ hcard' heq
        · rcases hlp : env.landPath (bps.min' hbne) with _ | lpa
          · rw [hbp, hlp] at heq
            obtain ⟨oa, vis, pa⟩ := r
            exact ih _ _ _ hcard' heq
          · obtain ⟨oa, vis, pa⟩ := r
            rw [hbp, hlp] at heq
            obtain ⟨-, rfl⟩ := Prod.mk.injEq .. ▸ heq
            have hmemv : vis ∈ oa := by
              have := hWF _ _ hbp
              simpa using this
            refine ⟨Finset.nonempty_of_ne_empty hs, ?_, by simpa using hmemv⟩
            exact fun x hx => (Finset.mem_inter.mp hx).1

theorem shipLoop_success {env : Env} {w : Area}
    (hWF : ∀ bp p, p ∈ env.shipCandidates bp → p.visitable ∈ p.objArea) :
    ∀ (n : ℕ) (bps : Area) (st st' : WRState), bps.card ≤ n →
      shipLoop env w n bps st = (true, st') →
      st'.info.water.Nonempty ∧
      st'.info.water ⊆ borderOutside {st'.info.boarding} ∧
      st'.info.visitable ∈ st'.info.blocked := by
  intro n
  induction n with
  | zero =>
    intro bps st st' hcard heq
    have hb : bps = ∅ := Finset.card_eq_zero.mp (Nat.le_zero.mp hcard)
    subst hb
    simp [shipLoop] at heq
  | succ n ih =>
    intro bps st st' hcard heq
    by_cases hb : bps = ∅
    · simp [shipLoop, hb] at heq
    · have hbne := Finset.nonempty_of_ne_empty hb
      have hcard' : (bps.erase (bps.min' hbne)).card ≤ n := by
        rw [Finset.card_erase_of_mem (bps.min'_mem hbne)]
        omega
      unfold shipLoop at heq
      rw [dif_neg hb] at heq
      by_cases hs : borderOutside {bps.min' hbne} ∩ w = ∅
      · rw [if_pos hs] at heq
        exact ih _ _ _ hcard' heq
      · rw [if_neg hs] at heq
        set bp := bps.min' hbne with hbpdef
        set ships := borderOutside {bp} ∩ w with hshipsdef
        split at heq
        · exact ih _ _ _ hcard' heq
        · rename_i p hfd
          split at heq
          · obtain ⟨-, rfl⟩ := Prod.mk.injEq .. ▸ heq
            have hships2 : ships \ ((borderOutside p.objArea ∩ w) \ ships) = ships :=
              Finset.sdiff_eq_self_iff_disjoint.mpr disjoint_sdiff_self_right
            have hmemv : p.visitable ∈ p.objArea :=
              hWF bp p (List.mem_of_find?_eq_some hfd)
            refine ⟨?_, ?_, by simpa using hmemv⟩
            · show ((ships \ ((borderOutside p.objArea ∩ w) \ ships))).Nonempty
              rw [hships2]
              exact Finset.nonempty_of_ne_empty hs
            · intro x hx
              rw [show (ships \ ((borderOutside p.objArea ∩ w) \ ships)) = ships
                from hships2] at hx
              exact (Finset.mem_inter.mp hx).1
          · exact ih _ _ _ hcard' heq

/-- C9: a successful `placeBoat` or `placeShipyard` commits a mutually
consistent `RouteInfo`: the reserved water set is nonempty, every tile
of it borders the boarding tile, and the visitable tile lies within the
blocked footprint (the last fact relies on the placed object's
visitable position lying inside its own area, an invariant of the
external object model). -/
theorem placement_info_consistent (env : Env) (st : WRState) (lake : Lake)
    (hWFb : ∀ a r, env.boatPlace a = some r → r.2.1 ∈ r.1)
    (hWFs : ∀ bp p, p ∈ env.shipCandidates bp → p.visitable ∈ p.objArea) :
    (∀ st', placeBoat env st lake = (true, st') →
      st'.info.water.Nonempty ∧
      st'.info.water ⊆ borderOutside {st'.info.boarding} ∧
      st'.info.visitable ∈ st'.info.blocked) ∧
    (∀ st', placeShipyard env st lake = (true, st') →
      st'.info.water.Nonempty ∧
      st'.info.water ⊆ borderOutside {st'.info.boarding} ∧
      st'.info.visitable ∈ st'.info.blocked) := by
  constructor
  · intro st' heq
    unfold placeBoat at heq
    by_cases hm : env.zoneManager
    · rw [if_neg (by simpa using hm)] at heq
      by_cases hsail : env.sailingBoatTypes = ∅
      · rw [if_pos hsail] at heq
        simp at heq
      · rw [if_neg hsail] at heq
        exact boatLoop_success hWFb _ _ _ _ le_rfl heq
    · rw [if_pos (by simpa using hm)] at heq
      simp at heq
  · intro st' heq
    unfold placeShipyard at heq
    by_cases hm : env.landManager
    · rw [if_neg (by simpa using hm)] at heq
      exact shipLoop_success hWFs _ _ _ _ le_rfl heq
    · rw [if_pos (by simpa using hm)] at heq
      simp at heq

def bTile : Tile := Tile.mk 0 0 0

def wTile : Tile := Tile.mk 0 1 0

def c9Env : Env :=
  ⟨true, false, {0}, fun _ => 100,
    fun _ => some ({wTile}, wTile, ∅), fun _ => some ∅,
    fun _ => [], fun _ => none, fun _ => none⟩

def c9Dst : LandZone :=
  ⟨1, ZoneType.treasure, {bTile}, ∅, some {bTile}, none⟩

def c9Lake : Lake :=
  ⟨{wTile}, [], [], [(1, {bTile})], {1}⟩

def c9St : WRState :=
  ⟨c2Map, c9Dst, {wTile}, ∅, RouteInfo.empty, []⟩

theorem placement_info_consistent_witness :
    ((placeBoat c9Env c9St c9Lake).2.info.water).Nonempty ∧
    (placeBoat c9Env c9St c9Lake).2.info.water ⊆
      borderOutside {(placeBoat c9Env c9St c9Lake).2.info.boarding} ∧
    (placeBoat c9Env c9St c9Lake).2.info.visitable ∈
      (placeBoat c9Env c9St c9Lake).2.info.blocked := by
  have hfst : (placeBoat c9Env c9St c9Lake).1 = true := by decide
  have heq : placeBoat c9Env c9St c9Lake = (true, (placeBoat c9Env c9St c9Lake).2) := by
    rw [← hfst]
  exact (placement_info_consistent c9Env c9St c9Lake
    (by
      intro a r h
      have hr : ({wTile}, wTile, (∅ : Area)) = r := by
        simpa [c9Env] using h
      rw [← hr]
      decide)
    (by
      intro bp p hp
      simp [c9Env] at hp)).1 _ heq

/-- Whether an event records a successful placement. -/
def placedOk : Event → Bool
  | Event.attemptShipyard true => true
  | Event.attemptBoat true => true
  | _ => false

theorem boatLoop_succ_eq (env : Env) (w : Area) (n : ℕ) (bps : Area) (st : WRState) :
    boatLoop env w (n + 1) bps st =
      if h : bps = ∅ then (false, st)
      else
        if borderOutside {bps.min' (Finset.nonempty_of_ne_empty h)} ∩ w = ∅ then
          boatLoop env w n (bps.erase (bps.min' (Finset.nonempty_of_ne_empty h))) st
        else
          match env.boatPlace
              (borderOutside {bps.min' (Finset.nonempty_of_ne_empty h)} ∩ w),
              env.landPath (bps.min' (Finset.nonempty_of_ne_empty h)) with
          | some (objArea, vis, pArea), some lpArea =>
            (true,
              { st with
                info := ⟨objArea, vis, bps.min' (Finset.nonempty_of_ne_empty h),
                  borderOutside {bps.min' (Finset.nonempty_of_ne_empty h)} ∩ w⟩
                zonePossible := (connectPath st.zonePossible st.zoneFree pArea).1
                zoneFree := (connectPath st.zonePossible st.zoneFree pArea).2
                dst := { st.dst with
                  areaPossible := (connectPath st.dst.areaPossible st.dst.freePaths lpArea).1
                  freePaths := (connectPath st.dst.areaPossible st.dst.freePaths lpArea).2 } })
          | _, _ =>
            boatLoop env w n (bps.erase (bps.min' (Finset.nonempty_of_ne_empty h))) st := by
  rfl

theorem shipLoop_succ_eq (env : Env) (w : Area) (n : ℕ) (bps : Area) (st : WRState) :
    shipLoop env w (n + 1) bps st =
      if h : bps = ∅ then (false, st)
      else
        if borderOutside {bps.min' (Finset.nonempty_of_ne_empty h)} ∩ w = ∅ then
          shipLoop env w n (bps.erase (bps.min' (Finset.nonempty_of_ne_empty h))) st
        else
          match (env.shipCandidates (bps.min' (Finset.nonempty_of_ne_empty h))).find?
              (fun p => decide (0 < shipyardAccept p.shipyardOut
                (bps.min' (Finset.nonempty_of_ne_empty h))
                (borderOutside {bps.min' (Finset.nonempty_of_ne_empty h)} ∩ w))) with
          | none => shipLoop env w n (bps.erase (bps.min' (Finset.nonempty_of_ne_empty h))) st
          | some p =>
            match p.pathValid, env.shipLandPath (bps.min' (Finset.nonempty_of_ne_empty h)),
                env.waterPath
                  ((borderOutside {bps.min' (Finset.nonempty_of_ne_empty h)} ∩ w) \
                    ((borderOutside p.objArea ∩ w) \
                      (borderOutside {bps.min' (Finset.nonempty_of_ne_empty h)} ∩ w))) with
            | true, some lpArea, some wpArea =>
              (true,
                { st with
                  info := ⟨p.objArea, p.visitable, bps.min' (Finset.nonempty_of_ne_empty h),
                    (borderOutside {bps.min' (Finset.nonempty_of_ne_empty h)} ∩ w) \
                      ((borderOutside p.objArea ∩ w) \
                        (borderOutside {bps.min' (Finset.nonempty_of_ne_empty h)} ∩ w))⟩
                  dst := { st.dst with
                    areaPossible := (connectPath
                      (connectPath st.dst.areaPossible st.dst.freePaths p.pathArea).1
                      (connectPath st.dst.areaPossible st.dst.freePaths p.pathArea).2 lpArea).1
                    freePaths := (connectPath
                      (connectPath st.dst.areaPossible st.dst.freePaths p.pathArea).1
                      (connectPath st.dst.areaPossible st.dst.freePaths p.pathArea).2 lpArea).2 }
                  zonePossible := (connectPath st.zonePossible st.zoneFree wpArea).1 \
                    ((borderOutside p.objArea ∩ w) \
                      (borderOutside {bps.min' (Finset.nonempty_of_ne_empty h)} ∩ w))
                  zoneFree := (connectPath st.zonePossible st.zoneFree wpArea).2
                  m := blockOnMap st.m
                    ((borderOutside p.objArea ∩ w) \
                      (borderOutside {bps.min' (Finset.nonempty_of_ne_empty h)} ∩ w)) })
            | _, _, _ =>
              shipLoop env w n (bps.erase (bps.min' (Finset.nonempty_of_ne_empty h))) st := by
  rfl

theorem boatLoop_rel {env : Env} {w : Area} :
    ∀ (n : ℕ) (bps : Area) (st st' : WRState), bps.card ≤ n →
      st'.m = st.m → st'.dst = st.dst → st'.zonePossible = st.zonePossible →
      st'.zoneFree = st.zoneFree → st'.events = st.events →
      (boatLoop env w n bps st').1 = (boatLoop env w n bps st).1 ∧
      ((boatLoop env w n bps st).1 = true →
        (boatLoop env w n bps st').2 = (boatLoop env w n bps st).2) ∧
      ((boatLoop env w n bps st).1 = false →
        (boatLoop env w n bps st').2 = st' ∧ (boatLoop env w n bps st).2 = st) := by
  intro n
  induction n with
  | zero =>
    intro bps st st' hcard h1 h2 h3 h4 h5
    have hb : bps = ∅ := Finset.card_eq_zero.mp (Nat.le_zero.mp hcard)
    subst hb
    simp [boatLoop]
  | succ n ih =>
    intro bps st st' hcard h1 h2 h3 h4 h5
    by_cases hb : bps = ∅
    · simp [boatLoop, hb]
    · have hcard' :
          (bps.erase (bps.min' (Finset.nonempty_of_ne_empty hb))).card ≤ n := by
        rw [Finset.card_erase_of_mem
          (bps.min'_mem (Finset.nonempty_of_ne_empty hb))]
        omega
      rw [boatLoop_succ_eq env w n bps st, boatLoop_succ_eq env w n bps st',
        dif_neg hb, dif_neg hb]
      by_cases hs :
          borderOutside {bps.min' (Finset.nonempty_of_ne_empty hb)} ∩ w = ∅
      · rw [if_pos hs, if_pos hs]
        exact ih _ _ _ hcard' h1 h2 h3 h4 h5
      · rw [if_neg hs, if_neg hs]
        rcases hbp : env.boatPlace
            (borderOutside {bps.min' (Finset.nonempty_of_ne_empty hb)} ∩ w)
          with _ | r
        · exact ih _ _ _ hcard' h1 h2 h3 h4 h5
        · obtain ⟨oa, vis, pa⟩ := r
          rcases hlp : env.landPath (bps.min' (Finset.nonempty_of_ne_empty hb))
            with _ | lpa
          · exact ih _ _ _ hcard' h1 h2 h3 h4 h5
          · refine ⟨rfl, fun _ => ?_, fun hc => by simp at hc⟩
            simp [connectPath, h1, h2, h3, h4, h5]

theorem shipLoop_rel {env : Env} {w : Area} :
    ∀ (n : ℕ) (bps : Area) (st st' : WRState), bps.card ≤ n →
      st'.m = st.m → st'.dst = st.dst → st'.zonePossible = st.zonePossible →
      st'.zoneFree = st.zoneFree → st'.events = st.events →
      (shipLoop env w n bps st').1 = (shipLoop env w n bps st).1 ∧
      ((shipLoop env w n bps st).1 = true →
        (shipLoop env w n bps st').2 = (shipLoop env w n bps st).2) ∧
      ((shipLoop env w n bps st).1 = false →
        (shipLoop env w n bps st').2 = st' ∧ (shipLoop env w n bps st).2 = st) := by
  intro n
  induction n with
  | zero =>
    intro bps st st' hcard h1 h2 h3 h4 h5
    have hb : bps = ∅ := Finset.card_eq_zero.mp (Nat.le_zero.mp hcard)
    subst hb
    simp [shipLoop]
  | succ n ih =>
    intro bps st st' hcard h1 h2 h3 h4 h5
    by_cases hb : bps = ∅
    · simp [shipLoop, hb]
    · have hcard' :
          (bps.erase (bps.min' (Finset.nonempty_of_ne_empty hb))).card ≤ n := by
        rw [Finset.card_erase_of_mem
          (bps.min'_mem (Finset.nonempty_of_ne_empty hb))]
        omega
      rw [shipLoop_succ_eq env w n bps st, shipLoop_succ_eq env w n bps st',
        dif_neg hb, dif_neg hb]
      by_cases hs :
          borderOutside {bps.min' (Finset.nonempty_of_ne_empty hb)} ∩ w = ∅
      · rw [if_pos hs, if_pos hs]
        exact ih _ _ _ hcard' h1 h2 h3 h4 h5
      · rw [if_neg hs, if_neg hs]
        split
        · exact ih _ _ _ hcard' h1 h2 h3 h4 h5
        · split
          · refine ⟨rfl, fun _ => ?_, fun hc => by simp at hc⟩
            simp [connectPath, h1, h2, h3, h4, h5]
          · exact ih _ _ _ hcard' h1 h2 h3 h4 h5

theorem placeBoat_eq (env : Env) (st : WRState) (lake : Lake) :
    placeBoat env st lake =
      if (!env.zoneManager) = true then (false, st)
      else if env.sailingBoatTypes = ∅ then (false, st)
      else
        boatLoop env (st.zonePossible ∪ st.zoneFree)
          (((lake.nbr st.dst.id ∩ (st.dst.areaPossible ∪ st.dst.freePaths)).filter
            (fun t => ¬ env.nearestObjectDistance t ≤ 3 ∧
              borderOutside {t} ∩ (st.zonePossible ∪ st.zoneFree) ≠ ∅)).card)
          ((lake.nbr st.dst.id ∩ (st.dst.areaPossible ∪ st.dst.freePaths)).filter
            (fun t => ¬ env.nearestObjectDistance t ≤ 3 ∧
              borderOutside {t} ∩ (st.zonePossible ∪ st.zoneFree) ≠ ∅)) st := by
  rfl

theorem placeShipyard_eq (env : Env) (st : WRState) (lake : Lake) :
    placeShipyard env st lake =
      if (!env.landManager) = true then (false, st)
      else
        shipLoop env ((st.zonePossible ∪ st.zoneFree) ∩ lake.area)
          (((lake.nbr st.dst.id ∩ (st.dst.areaPossible ∪ st.dst.freePaths)).filter
            (fun t => borderOutside {t} ∩
              ((st.zonePossible ∪ st.zoneFree) ∩ lake.area) ≠ ∅)).card)
          ((lake.nbr st.dst.id ∩ (st.dst.areaPossible ∪ st.dst.freePaths)).filter
            (fun t => borderOutside {t} ∩
              ((st.zonePossible ∪ st.zoneFree) ∩ lake.area) ≠ ∅)) st := by
  rfl

theorem placeBoat_rel (env : Env) (st st' : WRState) (lake : Lake)
    (h1 : st'.m = st.m) (h2 : st'.dst = st.dst) (h3 : st'.zonePossible = st.zonePossible)
    (h4 : st'.zoneFree = st.zoneFree) (h5 : st'.events = st.events) :
    (placeBoat env st' lake).1 = (placeBoat env st lake).1 ∧
    ((placeBoat env st lake).1 = true →
      (placeBoat env st' lake).2 = (placeBoat env st lake).2) ∧
    ((placeBoat env st lake).1 = false →
      (placeBoat env st' lake).2 = st' ∧ (placeBoat env st lake).2 = st) := by
  have e1 := placeBoat_eq env st lake
  have e2 := placeBoat_eq env st' lake
  by_cases hm : env.zoneManager
  · by_cases hsail : env.sailingBoatTypes = ∅
    · rw [if_neg (show ¬ ((!env.zoneManager) = true) by simpa using hm),
        if_pos hsail] at e1 e2
      rw [e1, e2]
      exact ⟨rfl, fun hc => by simp at hc, fun _ => ⟨rfl, rfl⟩⟩
    · rw [if_neg (show ¬ ((!env.zoneManager) = true) by simpa using hm),
        if_neg hsail] at e1 e2
      rw [e1, e2, h2, h3, h4]
      exact boatLoop_rel _ _ _ _ le_rfl h1 h2 h3 h4 h5
  · rw [if_pos (show ((!env.zoneManager) = true) by simpa using hm)] at e1 e2
    rw [e1, e2]
    exact ⟨rfl, fun hc => by simp at hc, fun _ => ⟨rfl, rfl⟩⟩

theorem placeShipyard_rel (env : Env) (st st' : WRState) (lake : Lake)
    (h1 : st'.m = st.m) (h2 : st'.dst = st.dst) (h3 : st'.zonePossible = st.zonePossible)
    (h4 : st'.zoneFree = st.zoneFree) (h5 : st'.events = st.events) :
    (placeShipyard env st' lake).1 = (placeShipyard env st lake).1 ∧
    ((placeShipyard env st lake).1 = true →
      (placeShipyard env st' lake).2 = (placeShipyard env st lake).2) ∧
    ((placeShipyard env st lake).1 = false →
      (placeShipyard env st' lake).2 = st' ∧ (placeShipyard env st lake).2 = st) := by
  have e1 := placeShipyard_eq env st lake
  have e2 := placeShipyard_eq env st' lake
  by_cases hm : env.landManager
  · rw [if_neg (show ¬ ((!env.landManager) = true) by simpa using hm)] at e1 e2
    rw [e1, e2, h2, h3, h4]
    exact shipLoop_rel _ _ _ _ le_rfl h1 h2 h3 h4 h5
  · rw [if_pos (show ((!env.landManager) = true) by simpa using hm)] at e1 e2
    rw [e1, e2]
    exact ⟨rfl, fun hc => by simp at hc, fun _ => ⟨rfl, rfl⟩⟩

theorem routeLake_eq_noNbr (env : Env) (st : WRState) (lake : Lake)
    (hn : ¬ lake.hasNbr st.dst.id = true) :
    routeLake env st lake = st := by
  simp [routeLake, hn]

theorem routeLake_eq_sever (env : Env) (st : WRState) (lake : Lake)
    (hn : lake.hasNbr st.dst.id = true) (hk : st.dst.id ∉ lake.keepConnections) :
    routeLake env st lake =
      { st with
        m := severBlock st.m (lake.nbr st.dst.id)
        dst := { st.dst with
          areaPossible := st.dst.areaPossible \ lake.nbr st.dst.id }
        events := st.events ++ [Event.sever] } := by
  simp [routeLake, hn, hk]

theorem routeLake_eq_skip (env : Env) (st : WRState) (lake : Lake)
    (hn : lake.hasNbr st.dst.id = true) (hk : st.dst.id ∈ lake.keepConnections)
    (hsmall : lake.area.card < 25) :
    routeLake env st lake = { st with events := st.events ++ [Event.skip] } := by
  simp [routeLake, hn, hk, hsmall]

theorem routeLake_eq_shipTrue (env : Env) (st : WRState) (lake : Lake)
    (hn : lake.hasNbr st.dst.id = true) (hk : st.dst.id ∈ lake.keepConnections)
    (hbig : ¬ lake.area.card < 25) (hsot : startOrTown st.dst)
    (hship : (placeShipyard env st lake).1 = true) :
    routeLake env st lake =
      { (placeShipyard env st lake).2 with
        events := st.events ++ [Event.attemptShipyard true] } := by
  unfold routeLake
  rw [if_pos hn, if_neg (not_not_intro hk), if_neg hbig,
    if_pos (show st.dst.zType = ZoneType.playerStart ∨
      st.dst.zType = ZoneType.cpuStart ∨ st.dst.towns.getD 0 ≠ 0 from hsot)]
  simp [hship]

theorem routeLake_eq_shipFalse (env : Env) (st : WRState) (lake : Lake)
    (hn : lake.hasNbr st.dst.id = true) (hk : st.dst.id ∈ lake.keepConnections)
    (hbig : ¬ lake.area.card < 25) (hsot : startOrTown st.dst)
    (hship : (placeShipyard env st lake).1 = false) :
    routeLake env st lake =
      { (placeBoat env (placeShipyard env st lake).2 lake).2 with
        events := st.events ++ [Event.attemptShipyard false,
          Event.attemptBoat (placeBoat env (placeShipyard env st lake).2 lake).1] } := by
  unfold routeLake
  rw [if_pos hn, if_neg (not_not_intro hk), if_neg hbig,
    if_pos (show st.dst.zType = ZoneType.playerStart ∨
      st.dst.zType = ZoneType.cpuStart ∨ st.dst.towns.getD 0 ≠ 0 from hsot)]
  simp [hship]

theorem routeLake_eq_boat (env : Env) (st : WRState) (lake : Lake)
    (hn : lake.hasNbr st.dst.id = true) (hk : st.dst.id ∈ lake.keepConnections)
    (hbig : ¬ lake.area.card < 25) (hsot : ¬ startOrTown st.dst) :
    routeLake env st lake =
      { (placeBoat env st lake).2 with
        events := st.events ++ [Event.attemptBoat (placeBoat env st lake).1] } := by
  unfold routeLake
  rw [if_pos hn, if_neg (not_not_intro hk), if_neg hbig,
    if_neg (show ¬ (st.dst.zType = ZoneType.playerStart ∨
      st.dst.zType = ZoneType.cpuStart ∨ st.dst.towns.getD 0 ≠ 0) from hsot)]

theorem routeLake_info (env : Env) (st st' : WRState) (lake : Lake)
    (h1 : st'.m = st.m) (h2 : st'.dst = st.dst) (h3 : st'.zonePossible = st.zonePossible)
    (h4 : st'.zoneFree = st.zoneFree) (h5 : st'.events = st.events) :
    (routeLake env st' lake).m = (routeLake env st lake).m ∧
    (routeLake env st' lake).dst = (routeLake env st lake).dst ∧
    (routeLake env st' lake).zonePossible = (routeLake env st lake).zonePossible ∧
    (routeLake env st' lake).zoneFree = (routeLake env st lake).zoneFree ∧
    (routeLake env st' lake).events = (routeLake env st lake).events ∧
    ∃ added, (routeLake env st lake).events = st.events ++ added ∧
      (added.any placedOk = true →
        (routeLake env st' lake).info = (routeLake env st lake).info) ∧
      (added.any placedOk = false →
        (routeLake env st lake).info = st.info ∧
        (routeLake env st' lake).info = st'.info) := by
  by_cases hn : lake.hasNbr st.dst.id = true
  · by_cases hk : st.dst.id ∈ lake.keepConnections
    · by_cases hsmall : lake.area.card < 25
      · rw [routeLake_eq_skip env st lake hn hk hsmall,
          routeLake_eq_skip env st' lake (h2 ▸ hn) (h2 ▸ hk) hsmall]
        exact ⟨h1, h2, h3, h4, by rw [h5], [Event.skip], rfl,
          fun hc => by simp [placedOk] at hc, fun _ => ⟨rfl, rfl⟩⟩
      · obtain ⟨hsf, hst, hsfl⟩ := placeShipyard_rel env st st' lake h1 h2 h3 h4 h5
        obtain ⟨hbf, hbt, hbfl⟩ := placeBoat_rel env st st' lake h1 h2 h3 h4 h5
        by_cases hsot : startOrTown st.dst
        · by_cases hship : (placeShipyard env st lake).1 = true
          · rw [routeLake_eq_shipTrue env st lake hn hk hsmall hsot hship,
              routeLake_eq_shipTrue env st' lake (h2 ▸ hn) (h2 ▸ hk) hsmall
                (by rw [show st'.dst = st.dst from h2]; exact hsot)
                (by rw [hsf]; exact hship)]
            have hss := hst hship
            exact ⟨by rw [hss], by rw [hss], by rw [hss], by rw [hss],
              by rw [hss, h5], [Event.attemptShipyard true], rfl,
              fun _ => by rw [hss], fun hc => by simp [placedOk] at hc⟩
          · have hshipf : (placeShipyard env st lake).1 = false := by
              simpa using hship
            obtain ⟨hs2', hs2⟩ := hsfl hshipf
            rw [routeLake_eq_shipFalse env st lake hn hk hsmall hsot hshipf,
              routeLake_eq_shipFalse env st' lake (h2 ▸ hn) (h2 ▸ hk) hsmall
                (by rw [show st'.dst = st.dst from h2]; exact hsot)
                (by rw [hsf]; exact hshipf)]
            rw [hs2', hs2]
            by_cases hb : (placeBoat env st lake).1 = true
            · have hbb := hbt hb
              exact ⟨by rw [hbb], by rw [hbb], by rw [hbb], by rw [hbb],
                by rw [hbb, hbf, h5],
                [Event.attemptShipyard false, Event.attemptBoat (placeBoat env st lake).1],
                rfl, fun _ => by rw [hbb],
                fun hc => by simp [placedOk, hb] at hc⟩
            · have hbfalse : (placeBoat env st lake).1 = false := by simpa using hb
              obtain ⟨hb2', hb2⟩ := hbfl hbfalse
              exact ⟨by rw [hb2', hb2, h1], by rw [hb2', hb2, h2],
                by rw [hb2', hb2, h3], by rw [hb2', hb2, h4],
                by rw [hb2', hb2, hbf, h5],
                [Event.attemptShipyard false, Event.attemptBoat (placeBoat env st lake).1],
                rfl, fun hc => by simp [placedOk, hbfalse] at hc,
                fun _ => by rw [hb2', hb2]; exact ⟨rfl, rfl⟩⟩
        · rw [routeLake_eq_boat env st lake hn hk hsmall hsot,
            routeLake_eq_boat env st' lake (h2 ▸ hn) (h2 ▸ hk) hsmall
              (by rw [show st'.dst = st.dst from h2]; exact hsot)]
          by_cases hb : (placeBoat env st lake).1 = true
          · have hbb := hbt hb
            exact ⟨by rw [hbb], by rw [hbb], by rw [hbb], by rw [hbb],
              by rw [hbb, hbf, h5],
              [Event.attemptBoat (placeBoat env st lake).1], rfl,
              fun _ => by rw [hbb], fun hc => by simp [placedOk, hb] at hc⟩
          · have hbfalse : (placeBoat env st lake).1 = false := by simpa using hb
            obtain ⟨hb2', hb2⟩ := hbfl hbfalse
            exact ⟨by rw [hb2', hb2, h1], by rw [hb2', hb2, h2],
              by rw [hb2', hb2, h3], by rw [hb2', hb2, h4],
              by rw [hb2', hb2, hbf, h5],
              [Event.attemptBoat (placeBoat env st lake).1], rfl,
              fun hc => by simp [placedOk, hbfalse] at hc,
              fun _ => by rw [hb2', hb2]; exact ⟨rfl, rfl⟩⟩
    · rw [routeLake_eq_sever env st lake hn hk,
        routeLake_eq_sever env st' lake (h2 ▸ hn) (h2 ▸ hk)]
      exact ⟨by rw [h1, h2], by rw [h2], h3, h4, by rw [h2, h5], [Event.sever], rfl,
        fun hc => by simp [placedOk] at hc, fun _ => ⟨rfl, rfl⟩⟩
  · rw [routeLake_eq_noNbr env st lake hn,
      routeLake_eq_noNbr env st' lake (h2 ▸ hn)]
    exact ⟨h1, h2, h3, h4, h5, [], by simp,
      fun hc => by simp [placedOk] at hc, fun _ => ⟨rfl, rfl⟩⟩

theorem waterRouteAux_append (env : ℕ → Env) :
    ∀ (l₁ l₂ : List Lake) (idx : ℕ) (st : WRState),
      waterRouteAux env idx (l₁ ++ l₂) st
        = waterRouteAux env (idx + l₁.length) l₂ (waterRouteAux env idx l₁ st) := by
  intro l₁
  induction l₁ with
  | nil => intro l₂ idx st; simp [waterRouteAux]
  | cons lk rest ih =>
    intro l₂ idx st
    have hidx : idx + (rest.length + 1) = (idx + 1) + rest.length := by omega
    simp only [List.cons_append, waterRouteAux, List.length_cons, hidx]
    exact ih l₂ (idx + 1) (routeLake (env idx) st lk)

theorem waterRouteAux_rel (env : ℕ → Env) :
    ∀ (l : List Lake) (idx : ℕ) (st st' : WRState),
      st'.m = st.m → st'.dst = st.dst → st'.zonePossible = st.zonePossible →
      st'.zoneFree = st.zoneFree → st'.events = st.events →
      (waterRouteAux env idx l st').m = (waterRouteAux env idx l st).m ∧
      (waterRouteAux env idx l st').dst = (waterRouteAux env idx l st).dst ∧
      (waterRouteAux env idx l st').zonePossible
        = (waterRouteAux env idx l st).zonePossible ∧
      (waterRouteAux env idx l st').zoneFree = (waterRouteAux env idx l st).zoneFree ∧
      (waterRouteAux env idx l st').events = (waterRouteAux env idx l st).events ∧
      ∃ added, (waterRouteAux env idx l st).events = st.events ++ added ∧
        (added.any placedOk = true →
          (waterRouteAux env idx l st').info = (waterRouteAux env idx l st).info) ∧
        (added.any placedOk = false →
          (waterRouteAux env idx l st).info = st.info ∧
          (waterRouteAux env idx l st').info = st'.info) := by
  intro l
  induction l with
  | nil =>
    intro idx st st' h1 h2 h3 h4 h5
    exact ⟨h1, h2, h3, h4, h5, [], by simp [waterRouteAux], fun hc => by simp at hc,
      fun _ => ⟨rfl, rfl⟩⟩
  | cons lk rest ih =>
    intro idx st st' h1 h2 h3 h4 h5
    obtain ⟨g1, g2, g3, g4, g5, added₁, he₁, hyes₁, hno₁⟩ :=
      routeLake_info (env idx) st st' lk h1 h2 h3 h4 h5
    obtain ⟨f1, f2, f3, f4, f5, added₂, he₂, hyes₂, hno₂⟩ :=
      ih (idx + 1) (routeLake (env idx) st lk) (routeLake (env idx) st' lk)
        g1 g2 g3 g4 g5
    simp only [waterRouteAux]
    refine ⟨f1, f2, f3, f4, f5, added₁ ++ added₂, ?_, ?_, ?_⟩
    · rw [he₂, he₁, List.append_assoc]
    · intro hany
      rcases hab : added₂.any placedOk with _ | _
      · have hone : added₁.any placedOk = true := by
          rcases h : added₁.any placedOk with _ | _
          · rw [List.any_append, h, hab] at hany
            simp at hany
          · rfl
        obtain ⟨hinfoSt, hinfoSt'⟩ := hno₂ hab
        rw [hinfoSt', hinfoSt, hyes₁ hone]
      · exact hyes₂ hab
    · intro hany
      rw [List.any_append] at hany
      have h1a : added₁.any placedOk = false := by
        rcases h : added₁.any placedOk with _ | _
        · rfl
        · rw [h] at hany; simp at hany
      have h2a : added₂.any placedOk = false := by
        rcases h : added₂.any placedOk with _ | _
        · rfl
        · rw [h] at hany; simp at hany
      obtain ⟨hi1, hi1'⟩ := hno₁ h1a
      obtain ⟨hi2, hi2'⟩ := hno₂ h2a
      exact ⟨by rw [hi2, hi1], by rw [hi2', hi1']⟩

/-- C10: `waterRoute` threads one shared `RouteInfo` through every
lake.  Processing `l₁ ++ l₂` equals processing `l₂` from the state left
by `l₁`; the events of the `l₁` phase are preserved (earlier placements
stay recorded); and whenever the `l₂` phase records any successful
placement, the returned `RouteInfo` is the one written by that phase —
whatever `RouteInfo` the `l₁` phase had produced is overwritten — while
with no success in `l₂` the info is exactly what `l₁` left behind. -/
theorem waterroute_last_placement (env : ℕ → Env) (idx : ℕ) (st : WRState)
    (l₁ l₂ : List Lake) :
    waterRouteAux env idx (l₁ ++ l₂) st
      = waterRouteAux env (idx + l₁.length) l₂ (waterRouteAux env idx l₁ st) ∧
    (∃ added, (waterRouteAux env idx l₁ st).events = st.events ++ added) ∧
    (∀ i : RouteInfo,
      ∃ added₂,
        (waterRouteAux env (idx + l₁.length) l₂
            (waterRouteAux env idx l₁ st)).events
          = (waterRouteAux env idx l₁ st).events ++ added₂ ∧
        (added₂.any placedOk = true →
          (waterRouteAux env (idx + l₁.length) l₂
              { waterRouteAux env idx l₁ st with info := i }).info
            = (waterRouteAux env (idx + l₁.length) l₂
                (waterRouteAux env idx l₁ st)).info) ∧
        (added₂.any placedOk = false →
          (waterRouteAux env (idx + l₁.length) l₂
              (waterRouteAux env idx l₁ st)).info
            = (waterRouteAux env idx l₁ st).info)) := by
  refine ⟨waterRouteAux_append env l₁ l₂ idx st, ?_, ?_⟩
  · obtain ⟨-, -, -, -, -, added, he, -, -⟩ :=
      waterRouteAux_rel env l₁ idx st st rfl rfl rfl rfl rfl
    exact ⟨added, he⟩
  · intro i
    obtain ⟨-, -, -, -, -, added₂, he, hyes, hno⟩ :=
      waterRouteAux_rel env l₂ (idx + l₁.length) (waterRouteAux env idx l₁ st)
        { waterRouteAux env idx l₁ st with info := i } rfl rfl rfl rfl rfl
    exact ⟨added₂, he, fun h => hyes h, fun h => (hno h).1⟩

def c10Lake : Lake :=
  ⟨insert wTile (((List.range 24).map (fun k => Tile.mk k 5 0)).toFinset),
    [], [], [(1, {bTile})], {1}⟩

def c10Info : RouteInfo :=
  ⟨{bTile}, bTile, bTile, {bTile}⟩

theorem waterroute_last_placement_witness :
    (waterRouteAux (fun _ => c9Env) 0 [c10Lake]
        { waterRouteAux (fun _ => c9Env) 0 [] c9St with info := c10Info }).info
      = (waterRouteAux (fun _ => c9Env) 0 [c10Lake]
          (waterRouteAux (fun _ => c9Env) 0 [] c9St)).info := by
  obtain ⟨added₂, he, hyes, -⟩ :=
    (waterroute_last_placement (fun _ => c9Env) 0 c9St [] [c10Lake]).2.2 c10Info
  apply hyes
  have hmid : (waterRouteAux (fun _ => c9Env) 0 [] c9St).events = [] := rfl
  rw [hmid, List.nil_append] at he
  rw [← he]
  decide

theorem mkLake_area (m : RmgMap) (a : Area) : (mkLake m a).area = a := rfl

theorem mkLake_rdm (m : RmgMap) (a : Area) :
    (mkLake m a).reverseDistanceMap = revDistanceMap a := rfl

/-- The tile the fix-up adds for a nonempty lake: the least tile of the
deepest BFS layer. -/
theorem lakeFix_spec {m : RmgMap} {a : Area} (h : a.Nonempty) :
    ∃ t layer, (mkLake m a).reverseDistanceMap.getLast? = some layer ∧
      t ∈ layer ∧ lakeFix (mkLake m a) = {t} ∧ t ∈ a := by
  obtain ⟨layer, hl, hne, hsub⟩ := revDistanceMap_getLast h
  refine ⟨layer.min' hne, layer, ?_, layer.min'_mem hne, ?_,
    hsub (layer.min'_mem hne)⟩
  · rw [mkLake_rdm, hl]
  · unfold lakeFix
    rw [mkLake_rdm, hl]
    simp [hne]

theorem lakeFix_subset {m : RmgMap} {a : Area} (h : a.Nonempty) :
    lakeFix (mkLake m a) ⊆ a := by
  obtain ⟨t, layer, -, -, hfix, hta⟩ := lakeFix_spec (m := m) h
  rw [hfix]
  simpa using hta

theorem mem_foldr_union {l : List Area} {t : Tile} :
    t ∈ l.foldr (· ∪ ·) ∅ ↔ ∃ c ∈ l, t ∈ c := by
  induction l with
  | nil => simp
  | cons c rest ih => simp [ih]

theorem pairwise_disjoint_get_eq {l : List Lake}
    (hp : l.Pairwise (fun a b => Disjoint a.area b.area))
    {j k : ℕ} {lk lk' : Lake} {t : Tile}
    (hj : l.get? j = some lk) (hk : l.get? k = some lk')
    (htj : t ∈ lk.area) (htk : t ∈ lk'.area) : j = k := by
  by_contra hne
  rcases Nat.lt_or_ge j k with hlt | hge
  · have hjlen : j < l.length := by
      by_contra hcon
      rw [List.get?_eq_none.mpr (by omega)] at hj
      exact Option.noConfusion hj
    have hklen : k < l.length := by
      by_contra hcon
      rw [List.get?_eq_none.mpr (by omega)] at hk
      exact Option.noConfusion hk
    have := List.pairwise_iff_get.mp hp ⟨j, hjlen⟩ ⟨k, hklen⟩ hlt
    rw [List.get?_eq_get hjlen] at hj
    rw [List.get?_eq_get hklen] at hk
    obtain rfl : l.get ⟨j, hjlen⟩ = lk := by simpa using hj
    obtain rfl : l.get ⟨k, hklen⟩ = lk' := by simpa using hk
    exact absurd htk (Finset.disjoint_left.mp this htj)
  · have hlt : k < j := by omega
    have hjlen : j < l.length := by
      by_contra hcon
      rw [List.get?_eq_none.mpr (by omega)] at hj
      exact Option.noConfusion hj
    have hklen : k < l.length := by
      by_contra hcon
      rw [List.get?_eq_none.mpr (by omega)] at hk
      exact Option.noConfusion hk
    have := List.pairwise_iff_get.mp hp ⟨k, hklen⟩ ⟨j, hjlen⟩ hlt
    rw [List.get?_eq_get hjlen] at hj
    rw [List.get?_eq_get hklen] at hk
    obtain rfl : l.get ⟨j, hjlen⟩ = lk := by simpa using hj
    obtain rfl : l.get ⟨k, hklen⟩ = lk' := by simpa using hk
    exact absurd htj (Finset.disjoint_left.mp this htk)

/-- The invariant `collectLakes` maintains while folding over the
connected components: the recorded BFS layers match each lake's area,
lake areas are pairwise disjoint, the tile index is exact, and the
walkable subset grew only by the per-lake fix-up tiles. -/
def CollectInv (fp0 : Area) (st : CollectResult) : Prop :=
  (∀ lk ∈ st.lakes, lk.reverseDistanceMap = revDistanceMap lk.area) ∧
  st.lakes.Pairwise (fun a b => Disjoint a.area b.area) ∧
  (∀ t k, st.lakeMap t = some k ↔
    ∃ lk, st.lakes.get? k = some lk ∧ t ∈ lk.area) ∧
  fp0 ⊆ st.freePaths ∧
  (∀ t ∈ st.freePaths, t ∈ fp0 ∨ ∃ lk ∈ st.lakes, t ∈ lk.area) ∧
  (∀ lk ∈ st.lakes, (lk.area ∩ st.freePaths).Nonempty) ∧
  (∀ lk ∈ st.lakes, lk.area ∩ fp0 = ∅ →
    lk.area ∩ st.freePaths = lakeFix lk ∧
    ∃ t layer, lk.reverseDistanceMap.getLast? = some layer ∧ t ∈ layer ∧
      lakeFix lk = {t}) ∧
  (∀ lk ∈ st.lakes, lk.area ∩ fp0 ≠ ∅ → lk.area ∩ st.freePaths ⊆ fp0)

theorem collectStep_inv (m : RmgMap) (fp0 : Area) (st : CollectResult) (c : Area)
    (hcne : c.Nonempty)
    (hdisj : ∀ lk ∈ st.lakes, Disjoint c lk.area)
    (hinv : CollectInv fp0 st) :
    CollectInv fp0 (collectStep m st c) ∧
    (collectStep m st c).lakes = st.lakes ++ [mkLake m c] := by
  obtain ⟨i1, i2, i3, i4, i5, i6, i7, i8⟩ := hinv
  have hfixsub : lakeFix (mkLake m c) ⊆ c := lakeFix_subset hcne
  have hlakes : (collectStep m st c).lakes = st.lakes ++ [mkLake m c] := rfl
  have hmap : ∀ t, (collectStep m st c).lakeMap t
      = if t ∈ c then some st.lakes.length else st.lakeMap t := fun _ => rfl
  have hfp : (collectStep m st c).freePaths
      = if c ∩ st.freePaths = ∅ then st.freePaths ∪ lakeFix (mkLake m c)
        else st.freePaths := rfl
  have hiff : c ∩ st.freePaths = ∅ ↔ c ∩ fp0 = ∅ := by
    constructor
    · intro h
      rw [← Finset.subset_empty]
      intro t ht
      rw [← h]
      obtain ⟨htc, htf⟩ := Finset.mem_inter.mp ht
      exact Finset.mem_inter.mpr ⟨htc, i4 htf⟩
    · intro h
      rw [← Finset.subset_empty]
      intro t ht
      obtain ⟨htc, htf⟩ := Finset.mem_inter.mp ht
      rcases i5 t htf with hf0 | ⟨lk, hlk, htlk⟩
      · exact absurd (Finset.mem_inter.mpr ⟨htc, hf0⟩) (by rw [h]; simp)
      · exact absurd htlk (Finset.disjoint_left.mp (hdisj lk hlk) htc)
  have hfreemono : st.freePaths ⊆ (collectStep m st c).freePaths := by
    rw [hfp]
    by_cases hneed : c ∩ st.freePaths = ∅
    · rw [if_pos hneed]; exact Finset.subset_union_left
    · rw [if_neg hneed]
  have holdinter : ∀ lk ∈ st.lakes,
      lk.area ∩ (collectStep m st c).freePaths = lk.area ∩ st.freePaths := by
    intro lk hlk
    rw [hfp]
    by_cases hneed : c ∩ st.freePaths = ∅
    · rw [if_pos hneed, Finset.inter_union_distrib_left]
      have : lk.area ∩ lakeFix (mkLake m c) = ∅ := by
        rw [← Finset.subset_empty]
        intro t ht
        obtain ⟨h1, h2⟩ := Finset.mem_inter.mp ht
        exact absurd h1 (Finset.disjoint_left.mp (hdisj lk hlk) (hfixsub h2))
      rw [this, Finset.union_empty]
    · rw [if_neg hneed]
  refine ⟨⟨?_, ?_, ?_, ?_, ?_, ?_, ?_, ?_⟩, hlakes⟩
  · intro lk hlk
    rw [hlakes] at hlk
    rcases List.mem_append.mp hlk with h | h
    · exact i1 lk h
    · rw [List.mem_singleton.mp h]
      exact mkLake_rdm m c
  · rw [hlakes]
    rw [List.pairwise_append]
    refine ⟨i2, List.pairwise_singleton _ _, ?_⟩
    intro a ha b hb
    rw [List.mem_singleton.mp hb]
    exact (hdisj a ha).symm
  · intro t k
    rw [hmap, hlakes]
    by_cases htc : t ∈ c
    · rw [if_pos htc]
      constructor
      · intro h
        obtain rfl : st.lakes.length = k := by simpa using h
        exact ⟨mkLake m c, List.get?_concat_length _ _, htc⟩
      · rintro ⟨lk, hget, htlk⟩
        rcases Nat.lt_trichotomy k st.lakes.length with hlt | heq | hgt
        · rw [List.get?_append hlt] at hget
          have hmem : lk ∈ st.lakes := List.get?_mem hget
          exact absurd htlk (Finset.disjoint_left.mp (hdisj lk hmem) htc)
        · rw [heq]
        · rw [List.get?_eq_none.mpr (by simp; omega)] at hget
          exact Option.noConfusion hget
    · rw [if_neg htc]
      rw [i3 t k]
      constructor
      · rintro ⟨lk, hget, htlk⟩
        have hlt : k < st.lakes.length := by
          by_contra hcon
          rw [List.get?_eq_none.mpr (by omega)] at hget
          exact Option.noConfusion hget
        exact ⟨lk, by rw [List.get?_append hlt]; exact hget, htlk⟩
      · rintro ⟨lk, hget, htlk⟩
        rcases Nat.lt_trichotomy k st.lakes.length with hlt | heq | hgt
        · rw [List.get?_append hlt] at hget
          exact ⟨lk, hget, htlk⟩
        · subst heq
          rw [List.get?_concat_length] at hget
          obtain rfl : mkLake m c = lk := by simpa using hget
          exact absurd htlk htc
        · rw [List.get?_eq_none.mpr (by simp; omega)] at hget
          exact Option.noConfusion hget
  · exact i4.trans hfreemono
  · intro t htf
    rw [hfp] at htf
    by_cases hneed : c ∩ st.freePaths = ∅
    · rw [if_pos hneed] at htf
      rcases Finset.mem_union.mp htf with h | h
      · rcases i5 t h with h0 | ⟨lk, hlk, htlk⟩
        · exact Or.inl h0
        · exact Or.inr ⟨lk, by rw [hlakes]; exact List.mem_append_left _ hlk, htlk⟩
      · refine Or.inr ⟨mkLake m c, ?_, hfixsub h⟩
        rw [hlakes]
        exact List.mem_append_right _ (List.mem_singleton_self _)
    · rw [if_neg hneed] at htf
      rcases i5 t htf with h0 | ⟨lk, hlk, htlk⟩
      · exact Or.inl h0
      · exact Or.inr ⟨lk, by rw [hlakes]; exact List.mem_append_left _ hlk, htlk⟩
  · intro lk hlk
    rw [hlakes] at hlk
    rcases List.mem_append.mp hlk with h | h
    · rw [holdinter lk h]
      exact i6 lk h
    · rw [List.mem_singleton.mp h, hfp, mkLake_area]
      by_cases hneed : c ∩ st.freePaths = ∅
      · rw [if_pos hneed]
        obtain ⟨tf, layer, -, -, hfix, htfa⟩ := lakeFix_spec (m := m) hcne
        refine ⟨tf, Finset.mem_inter.mpr ⟨htfa, Finset.mem_union_right _ ?_⟩⟩
        rw [hfix]
        exact Finset.mem_singleton_self tf
      · rw [if_neg hneed]
        exact Finset.nonempty_of_ne_empty hneed
  · intro lk hlk hfp0
    rw [hlakes] at hlk
    rcases List.mem_append.mp hlk with h | h
    · obtain ⟨heq, hex⟩ := i7 lk h hfp0
      exact ⟨by rw [holdinter lk h]; exact heq, hex⟩
    · obtain rfl := List.mem_singleton.mp h
      rw [mkLake_area] at hfp0
      have hneed : c ∩ st.freePaths = ∅ := hiff.mpr hfp0
      constructor
      · rw [hfp, if_pos hneed, mkLake_area, Finset.inter_union_distrib_left,
          hneed, Finset.empty_union]
        exact Finset.inter_eq_right.mpr hfixsub
      · obtain ⟨tf, layer, hlast, htl, hfix, -⟩ := lakeFix_spec (m := m) hcne
        exact ⟨tf, layer, hlast, htl, hfix⟩
  · intro lk hlk hfp0
    rw [hlakes] at hlk
    rcases List.mem_append.mp hlk with h | h
    · rw [holdinter lk h]
      exact i8 lk h hfp0
    · obtain rfl := List.mem_singleton.mp h
      rw [mkLake_area] at hfp0
      have hneed : ¬ c ∩ st.freePaths = ∅ := fun hcon => hfp0 (hiff.mp hcon)
      rw [hfp, if_neg hneed, mkLake_area]
      intro t ht
      obtain ⟨htc, htf⟩ := Finset.mem_inter.mp ht
      rcases i5 t htf with h0 | ⟨lk', hlk', htlk'⟩
      · exact h0
      · exact absurd htlk' (Finset.disjoint_left.mp (hdisj lk' hlk') htc)

theorem collectFold_inv (m : RmgMap) (fp0 : Area) :
    ∀ (comps : List Area) (st : CollectResult),
      (∀ c ∈ comps, c.Nonempty) →
      comps.Pairwise (fun a b => Disjoint a b) →
      (∀ c ∈ comps, ∀ lk ∈ st.lakes, Disjoint c lk.area) →
      CollectInv fp0 st →
      CollectInv fp0 (comps.foldl (collectStep m) st) ∧
      (comps.foldl (collectStep m) st).lakes = st.lakes ++ comps.map (mkLake m) := by
  intro comps
  induction comps with
  | nil =>
    intro st _ _ _ hinv
    exact ⟨hinv, by simp⟩
  | cons c rest ih =>
    intro st hne hpair hdisj hinv
    obtain ⟨hinv', hlakes'⟩ := collectStep_inv m fp0 st c
      (hne c (List.mem_cons_self c rest))
      (fun lk hlk => hdisj c (List.mem_cons_self c rest) lk hlk) hinv
    have hdisj' : ∀ c' ∈ rest, ∀ lk ∈ (collectStep m st c).lakes,
        Disjoint c' lk.area := by
      intro c' hc' lk hlk
      rw [hlakes'] at hlk
      rcases List.mem_append.mp hlk with h | h
      · exact hdisj c' (List.mem_cons_of_mem c hc') lk h
      · rw [List.mem_singleton.mp h, mkLake_area]
        exact ((List.pairwise_cons.mp hpair).1 c' hc').symm
    obtain ⟨hfinv, hflakes⟩ := ih (collectStep m st c)
      (fun c' hc' => hne c' (List.mem_cons_of_mem c hc'))
      (List.pairwise_cons.mp hpair).2 hdisj' hinv'
    refine ⟨hfinv, ?_⟩
    rw [List.foldl_cons, hflakes, hlakes']
    simp

/-- C6: after lake extraction, the lake areas are pairwise disjoint
subsets of the zone's confirmed area whose union covers it, and the
tile-to-lake index maps each tile of the confirmed area to the unique
lake containing it. -/
theorem collectLakes_partition (m : RmgMap) (zoneArea fp0 : Area) :
    (collectLakes m zoneArea fp0).lakes.Pairwise
      (fun a b => Disjoint a.area b.area) ∧
    (∀ lk ∈ (collectLakes m zoneArea fp0).lakes, lk.area ⊆ zoneArea) ∧
    (∀ t, t ∈ zoneArea ↔
      ∃ k lk, (collectLakes m zoneArea fp0).lakeMap t = some k ∧
        (collectLakes m zoneArea fp0).lakes.get? k = some lk ∧ t ∈ lk.area) ∧
    (∀ t k j (lk' : Lake), (collectLakes m zoneArea fp0).lakeMap t = some k →
      (collectLakes m zoneArea fp0).lakes.get? j = some lk' → t ∈ lk'.area →
      j = k) := by
  obtain ⟨hcne, hcunion, hcpair⟩ := connectedAreas_spec zoneArea
  have hcl : collectLakes m zoneArea fp0
      = List.foldl (collectStep m)
        { lakes := [], lakeMap := fun _ => none, freePaths := fp0 }
        (connectedAreas zoneArea) := rfl
  have hinit : CollectInv fp0
      { lakes := [], lakeMap := fun _ => none, freePaths := fp0 } := by
    refine ⟨?_, ?_, ?_, ?_, ?_, ?_, ?_, ?_⟩ <;> simp
  obtain ⟨⟨j1, j2, j3, j4, j5, j6, j7, j8⟩, hlakes⟩ :=
    collectFold_inv m fp0 (connectedAreas zoneArea)
      { lakes := [], lakeMap := fun _ => none, freePaths := fp0 }
      (fun c hc => (hcne c hc).1) hcpair (by simp) hinit
  have hlakes' : (collectLakes m zoneArea fp0).lakes
      = (connectedAreas zoneArea).map (mkLake m) := by
    rw [hcl, hlakes]
    simp
  rw [hcl]
  refine ⟨j2, ?_, ?_, ?_⟩
  · intro lk hlk
    rw [← hcl, hlakes'] at hlk
    obtain ⟨c, hc, rfl⟩ := List.mem_map.mp hlk
    rw [mkLake_area]
    intro t ht
    rw [← hcunion]
    exact mem_foldr_union.mpr ⟨c, hc, ht⟩
  · intro t
    constructor
    · intro ht
      rw [← hcunion] at ht
      obtain ⟨c, hc, htc⟩ := mem_foldr_union.mp ht
      obtain ⟨k, hk⟩ := List.mem_iff_get?.mp hc
      have hget : (List.foldl (collectStep m)
          { lakes := [], lakeMap := fun _ => none, freePaths := fp0 }
          (connectedAreas zoneArea)).lakes.get? k = some (mkLake m c) := by
        rw [← hcl, hlakes']
        rw [List.get?_map, hk]
        rfl
      refine ⟨k, mkLake m c, ?_, hget, by rw [mkLake_area]; exact htc⟩
      exact (j3 t k).mpr ⟨mkLake m c, hget, by rw [mkLake_area]; exact htc⟩
    · rintro ⟨k, lk, -, hget, htlk⟩
      rw [← hcl, hlakes'] at hget
      rw [List.get?_map] at hget
      rcases hc : (connectedAreas zoneArea).get? k with _ | c
      · rw [hc] at hget
        exact Option.noConfusion hget
      · rw [hc] at hget
        obtain rfl : mkLake m c = lk := by simpa using hget
        rw [mkLake_area] at htlk
        rw [← hcunion]
        exact mem_foldr_union.mpr ⟨c, List.get?_mem hc, htlk⟩
  · intro t k j lk' hmapt hgetj htlk'
    obtain ⟨lkk, hgetk, htlkk⟩ := (j3 t k).mp hmapt
    exact pairwise_disjoint_get_eq j2 hgetj hgetk htlk' htlkk

/-- C5: after `collectLakes`, every lake's area meets the zone's
guaranteed-walkable subset; the subset only grew, any growth lies
inside the lakes, and a lake that had no walkable tile received exactly
one new tile, taken from the deepest BFS layer of that lake. -/
theorem collectLakes_freePaths (m : RmgMap) (zoneArea fp0 : Area) :
    (∀ lk ∈ (collectLakes m zoneArea fp0).lakes,
      (lk.area ∩ (collectLakes m zoneArea fp0).freePaths).Nonempty) ∧
    fp0 ⊆ (collectLakes m zoneArea fp0).freePaths ∧
    (∀ t ∈ (collectLakes m zoneArea fp0).freePaths,
      t ∈ fp0 ∨ ∃ lk ∈ (collectLakes m zoneArea fp0).lakes, t ∈ lk.area) ∧
    (∀ lk ∈ (collectLakes m zoneArea fp0).lakes, lk.area ∩ fp0 = ∅ →
      ∃ t layer, lk.reverseDistanceMap.getLast? = some layer ∧ t ∈ layer ∧
        lk.area ∩ (collectLakes m zoneArea fp0).freePaths = {t}) ∧
    (∀ lk ∈ (collectLakes m zoneArea fp0).lakes, lk.area ∩ fp0 ≠ ∅ →
      lk.area ∩ (collectLakes m zoneArea fp0).freePaths ⊆ fp0) := by
  obtain ⟨hcne, hcunion, hcpair⟩ := connectedAreas_spec zoneArea
  have hcl : collectLakes m zoneArea fp0
      = List.foldl (collectStep m)
        { lakes := [], lakeMap := fun _ => none, freePaths := fp0 }
        (connectedAreas zoneArea) := rfl
  have hinit : CollectInv fp0
      { lakes := [], lakeMap := fun _ => none, freePaths := fp0 } := by
    refine ⟨?_, ?_, ?_, ?_, ?_, ?_, ?_, ?_⟩ <;> simp
  obtain ⟨⟨j1, j2, j3, j4, j5, j6, j7, j8⟩, hlakes⟩ :=
    collectFold_inv m fp0 (connectedAreas zoneArea)
      { lakes := [], lakeMap := fun _ => none, freePaths := fp0 }
      (fun c hc => (hcne c hc).1) hcpair (by simp) hinit
  rw [hcl]
  refine ⟨j6, j4, j5, ?_, j8⟩
  intro lk hlk hfp0
  obtain ⟨heq, t, layer, hlast, htl, hfix⟩ := j7 lk hlk hfp0
  exact ⟨t, layer, hlast, htl, by rw [heq, hfix]⟩

def c6m : RmgMap :=
  ⟨∅, fun _ => 0, fun _ => TileType.free⟩

theorem collectLakes_partition_witness :
    ∃ k lk, (collectLakes c6m {bTile} ∅).lakeMap bTile = some k ∧
      (collectLakes c6m {bTile} ∅).lakes.get? k = some lk ∧ bTile ∈ lk.area :=
  ((collectLakes_partition c6m {bTile} ∅).2.2.1 bTile).mp (by decide)

theorem collectLakes_freePaths_witness :
    ((mkLake c6m {bTile}).area ∩
      (collectLakes c6m {bTile} ∅).freePaths).Nonempty :=
  (collectLakes_freePaths c6m {bTile} ∅).1 (mkLake c6m {bTile}) (by
    have hcomps : connectedAreas {bTile} = [{bTile}] := by decide
    show mkLake c6m {bTile} ∈ (List.foldl (collectStep c6m)
      { lakes := [], lakeMap := fun _ => none, freePaths := ∅ }
      (connectedAreas {bTile})).lakes
    rw [hcomps]
    exact List.mem_singleton_self _)

def c1LakeKept : Lake :=
  ⟨{Tile.mk 0 0 0}, [], [], [(7, {Tile.mk 1 0 0})], {7}⟩

theorem dump_markers_witness :
    dump [c1LakeKept] c1LakeMap (Tile.mk 1 0 0) = zoneChar 7 := by
  have h := dump_markers [c1LakeKept] c1LakeMap (Tile.mk 1 0 0) 0 c1LakeKept 7
    {Tile.mk 1 0 0} (by decide) (by decide) (by decide) (by decide) (by decide)
  rw [h.1, if_pos (show (7 : ℕ) ∈ c1LakeKept.keepConnections by decide)]
